import Mathlib

/-!
# Shamir secret reconstruction with consensus voting (`main.cpp`)

A shallow embedding of the C++ program: `mpz_class` values are `Int`, a
`vector<Share>` is a `List Share`, a `std::string` is its list of characters,
`std::map<string, T>` is a key-sorted association list and `std::set<mpz_class>`
is a sorted duplicate-free list.  Loop counters, sizes and tallies declared `int`
in the source are natural numbers here: the embedding describes runs in which
they stay below `2 ^ 31`, the range in which the C++ arithmetic on them is defined.

An `mpz_class` division by zero is not an ordinary return: the embedding makes it
an explicit failure (`none`), and the analysis loop takes as a parameter whether
that failure reaches the `catch (...)` of the tally loop or ends the run.

The GMP calls the program makes (`mpz_set_str`, `get_str`, the truncating
division) are written out after the GMP manual.
-/

namespace Shamir

/-- The type `typedef pair<mpz_class, mpz_class> Share`: `(x, y)`. -/
abbrev Share := Int × Int

/-- The element `shares[j]` of a vector, for an index the loops keep in bounds. -/
def at_ (shares : List Share) (j : Nat) : Share := shares.getD j (0, 0)

/-! ## `lagrangeInterpolationAtZero` -/

/-- One pass of the inner `for (j ...)` body: skip `j == i`, else
`num *= -xj; den *= (xi - xj)`. -/
def innerStep (shares : List Share) (i : Nat) (nd : Int × Int) (j : Nat) : Int × Int :=
  if i = j then nd
  else (nd.1 * (-(at_ shares j).1), nd.2 * ((at_ shares i).1 - (at_ shares j).1))

/-- The pair `(num, den)` when the inner loop over `j = 0 .. k-1` has finished,
starting from `num = 1, den = 1`. -/
def numDen (shares : List Share) (i : Nat) : Int × Int :=
  (List.range shares.length).foldl (innerStep shares i) (1, 1)

/-- The statement `term = yi * num / den`: `mpz_class` division truncates toward
zero; a zero divisor is the failure `none`. -/
def termAt (shares : List Share) (i : Nat) : Option Int :=
  let nd := numDen shares i
  if nd.2 = 0 then none else some (Int.tdiv ((at_ shares i).2 * nd.1) nd.2)

/-- One pass of the outer `for (i ...)` body: compute the term and add it to
`secret`; a failed division ends the computation. -/
def outerStep (shares : List Share) (acc : Option Int) (i : Nat) : Option Int :=
  match acc with
  | none => none
  | some secret =>
    match termAt shares i with
    | none => none
    | some term => some (secret + term)

/-- The function `lagrangeInterpolationAtZero(shares)`: `secret` starts at `0`
and the outer loop runs over `i = 0 .. k-1` with `k = shares.size()`. -/
def lagrangeInterpolationAtZero (shares : List Share) : Option Int :=
  (List.range shares.length).foldl (outerStep shares) (some 0)

/-! ## `generateCombinations` -/

/-- The `for (i = start; i < shares.size(); i++)` loop of `generateCombinations`,
on the part `rest = shares[i ..]` of the vector still to visit.  Each pass pushes
`shares[i]` on `current`, makes the recursive call `generateCombinations(i + 1, _)`
(which appends `current` to `combs` when `current.size() == k` and otherwise runs
this loop on `shares[i + 1 ..]`), pops `current` and moves on.  The comparison
`current.size() == k` is between a size and the `int k`: a negative `k` is never
equal to a size. -/
def genLoop (k : Int) : List Share → List Share → List (List Share) → List (List Share)
  | [], _, combs => combs
  | s :: rest, current, combs =>
    let pushed := current ++ [s]
    let combs1 :=
      if (pushed.length : Int) = k then combs ++ [pushed]
      else genLoop k rest pushed combs
    genLoop k rest current combs1

/-- The lambda `generateCombinations(start, depth)` acting on the captured
`current` and `combs`; it returns the new `combs` (`current` is restored by the
matching `pop_back` on every path, `depth` is never read). -/
def generateCombinations (shares : List Share) (k : Int) (start : Nat)
    (current : List Share) (combs : List (List Share)) : List (List Share) :=
  if (current.length : Int) = k then combs ++ [current]
  else genLoop k (shares.drop start) current combs

/-- The vector `combs` after the call `generateCombinations(0, 0)` in `main`. -/
def combinations (shares : List Share) (k : Int) : List (List Share) :=
  generateCombinations shares k 0 [] []

/-! ## Strings, `std::map<string, T>` and `std::set<mpz_class>` -/

/-- A `std::string`, as the list of its characters. -/
abbrev Str := List Char

/-- Decimal digits of `n`, most significant first; `fuel` bounds the number of
digits and `n + 1` always suffices. -/
def decDigits : Nat → Nat → Str
  | 0, _ => []
  | fuel + 1, n =>
    if n < 10 then [Nat.digitChar n]
    else decDigits fuel (n / 10) ++ [Nat.digitChar (n % 10)]

/-- The call `secret.get_str()` of `mpz_class`: the decimal representation, with a
leading `-` for a negative value. -/
def get_str (z : Int) : Str :=
  if z < 0 then '-' :: decDigits (z.natAbs + 1) z.natAbs
  else decDigits (z.natAbs + 1) z.natAbs

/-- The comparison `std::less<std::string>` that orders the keys of the maps:
character by character, a proper prefix first. -/
def strLt : Str → Str → Bool
  | [], [] => false
  | [], _ :: _ => true
  | _ :: _, [] => false
  | a :: as, b :: bs =>
    if a.toNat < b.toNat then true
    else if b.toNat < a.toNat then false
    else strLt as bs

/-- The access `m[key]` followed by an update `f` of the mapped value, on a
`std::map` held as its key-ordered list of entries: an absent key is inserted at
its place in the order with the value-initialised `dflt`. -/
def mapUpdate {β : Type} (key : Str) (dflt : β) (f : β → β) :
    List (Str × β) → List (Str × β)
  | [] => [(key, f dflt)]
  | (k', v) :: rest =>
    if strLt key k' then (key, f dflt) :: (k', v) :: rest
    else if strLt k' key then (k', v) :: mapUpdate key dflt f rest
    else (k', f v) :: rest

/-- The value read by `m[key]`: the mapped value of the entry whose key is
equivalent to `key`, or the value-initialised `dflt` when there is none. -/
def mapGet {β : Type} (key : Str) (dflt : β) : List (Str × β) → β
  | [] => dflt
  | (k', v) :: rest =>
    if strLt key k' then mapGet key dflt rest
    else if strLt k' key then mapGet key dflt rest
    else v

/-- The call `s.insert(x)` on a `std::set<mpz_class>` held as its ascending list. -/
def setInsert (x : Int) : List Int → List Int
  | [] => [x]
  | y :: rest =>
    if x < y then x :: y :: rest
    else if y < x then y :: setInsert x rest
    else y :: rest

/-! ## The per-file analysis in `main` -/

/-- The two maps filled by the tally loop. -/
structure Tally where
  /-- The map `freq`. -/
  freq : List (Str × Nat)
  /-- The map `sourceMap`. -/
  sourceMap : List (Str × List (List Share))

/-- One pass of `for (const auto& comb : combs)`.  On a successful interpolation
`freq[secretStr]++` and `sourceMap[secretStr].push_back(comb)`.  When the division
fails: with `throws = true` the failure is a C++ exception, caught by
`catch (...)`, and the loop continues; with `throws = false` it ends the run. -/
def tallyStep (throws : Bool) (st : Option Tally) (comb : List Share) : Option Tally :=
  match st with
  | none => none
  | some t =>
    match lagrangeInterpolationAtZero comb with
    | some secret =>
      let secretStr := get_str secret
      some ⟨mapUpdate secretStr 0 (fun c => c + 1) t.freq,
            mapUpdate secretStr [] (fun v => v ++ [comb]) t.sourceMap⟩
    | none => if throws then some t else none

/-- The tally loop over `combs`, from two empty maps. -/
def tally (throws : Bool) (combs : List (List Share)) : Option Tally :=
  combs.foldl (tallyStep throws) (some ⟨[], []⟩)

/-- One pass of `for (auto& [s, count] : freq)`: `if (count > maxFreq)` take the
entry.  The state is `(bestSecret, maxFreq)`. -/
def selectStep (best : Str × Nat) (entry : Str × Nat) : Str × Nat :=
  if entry.2 > best.2 then entry else best

/-- The selection loop, over `freq` in key order, from `bestSecret = ""` and
`maxFreq = 0`. -/
def selectBest (freq : List (Str × Nat)) : Str × Nat :=
  freq.foldl selectStep ([], 0)

/-- Step 1: `validIndices`, every `x` of every subset in `sourceMap[bestSecret]`. -/
def validIndices (winning : List (List Share)) : List Int :=
  winning.foldl (fun acc comb => comb.foldl (fun a s => setInsert s.1 a) acc) []

/-- Step 2: `allIndices`, every `x` of the input. -/
def allIndices (shares : List Share) : List Int :=
  shares.foldl (fun a s => setInsert s.1 a) []

/-- Step 3: the indices printed as invalid, in the order of `allIndices`: those
for which `validIndices.find(x) == validIndices.end()`. -/
def invalidIndices (shares : List Share) (winning : List (List Share)) : List Int :=
  (allIndices shares).filter (fun x => decide (x ∉ validIndices winning))

/-- What one pass of the per-file loop of `main` computes and prints. -/
structure Report where
  /-- The string printed after `Secret for file`. -/
  bestSecret : Str
  /-- The final `maxFreq`. -/
  maxFreq : Nat
  /-- The maps of the tally loop. -/
  maps : Tally
  /-- The indices printed after `Invalid shares for file` (none printed: `None`). -/
  invalid : List Int

/-- The body of the per-file loop of `main` on the parsed `shares` and `k`;
`none` when a failed division ends the run (only with `throws = false`). -/
def analyze (throws : Bool) (shares : List Share) (k : Int) : Option Report :=
  match tally throws (combinations shares k) with
  | none => none
  | some t =>
    let best := selectBest t.freq
    some ⟨best.1, best.2, t, invalidIndices shares (mapGet best.1 [] t.sourceMap)⟩

/-! ## `decodeBase` -/

/-- The C function `isspace` in the "C" locale, used by `mpz_set_str`: space,
`\t`, `\n`, `\v`, `\f`, `\r`. -/
def isspace (c : Char) : Bool :=
  c.toNat = 32 || (9 ≤ c.toNat && c.toNat ≤ 13)

/-- The digit table of GMP's `mpz_set_str`, chosen by the `base` argument as
passed: `0`-`9` are `0..9`; for `base <= 36` both `A`-`Z` and `a`-`z` are
`10..35`; for `base > 36` `A`-`Z` are `10..35` and `a`-`z` are `36..61`; any
other character is no digit. -/
def digitValue (base : Int) (c : Char) : Option Nat :=
  if 48 ≤ c.toNat ∧ c.toNat ≤ 57 then some (c.toNat - 48)
  else if 65 ≤ c.toNat ∧ c.toNat ≤ 90 then some (c.toNat - 65 + 10)
  else if 97 ≤ c.toNat ∧ c.toNat ≤ 122 then
    (if base > 36 then some (c.toNat - 97 + 36) else some (c.toNat - 97 + 10))
  else none

/-- The character `c` is a digit of base `base` for `mpz_set_str`: it has a digit
value, and that value is below the base. -/
def validDigit (base : Int) (c : Char) : Bool :=
  match digitValue base c with
  | some d => decide ((d : Int) < base)
  | none => false

/-- The characters `value.c_str()` hands to a C function: those before the first
NUL. -/
def c_str (value : Str) : Str :=
  value.takeWhile (fun c => c.toNat ≠ 0)

/-- The base detection of `mpz_set_str` for `base == 0`, on the string from its
first digit on: `0x`/`0X` hexadecimal, `0b`/`0B` binary, a leading `0` octal,
decimal otherwise; it returns the base and the rest of the string. -/
def detectBase : Str → Int × Str
  | '0' :: 'x' :: rest => (16, rest)
  | '0' :: 'X' :: rest => (16, rest)
  | '0' :: 'b' :: rest => (2, rest)
  | '0' :: 'B' :: rest => (2, rest)
  | '0' :: rest => (8, rest)
  | s => (10, s)

/-- The number with the digits `ds` (most significant first) in base `b`. -/
def positional (b : Int) (ds : List Nat) : Int :=
  ds.foldl (fun acc d => acc * b + (d : Int)) 0

/-- The first-digit test of `mpz_set_str`: the character after the optional sign
must have a digit value below `base` (below `10` when `base == 0`). -/
def firstDigitOk (base : Int) (s : Str) : Bool :=
  match s.head? with
  | some c =>
    match digitValue base c with
    | some d => decide ((d : Int) < (if base = 0 then 10 else base))
    | none => false
  | none => false

/-- The conversion stage of `mpz_set_str`, on the string after sign and base
prefix: leading zeros and white space are skipped (nothing left: the value is
`0`), then every character that is not white space must have a digit value, in the
table chosen by the `base` argument as passed (`table`), below the base in use
(`base`); if one has not, the status is `-1` and `x` is left as it was. -/
def convertDigits (x : Int) (table base : Int) (negative : Bool) (s : Str) : Int × Int :=
  let s3 := s.dropWhile (fun c => decide (c.toNat = 48) || isspace c)
  if s3.isEmpty then (0, 0)
  else
    let ds := (s3.filter (fun c => !isspace c)).map (digitValue table)
    if ds.all (fun d =>
        match d with
        | some v => decide ((v : Int) < base)
        | none => false) then
      let v := positional base (ds.map (fun d => d.getD 0))
      (if negative then -v else v, 0)
    else (x, -1)

/-- The GMP call `mpz_set_str(x, str, base)`, after the GMP manual and its
reference implementation, as the pair (new value of `x`, returned status).
Leading white space is skipped, one `-` is accepted, white space between digits is
ignored; `base` is `0` (detect) or at most `62`.  The status is `0` when the
string is a number in that base and `-1` otherwise, in which case `x` is left as
it was. -/
def mpz_set_str (x : Int) (str : Str) (base : Int) : Int × Int :=
  if base > 62 then (x, -1)
  else
    let s1 := str.dropWhile isspace
    let negative := decide (s1.head? = some '-')
    let s2 := if negative then s1.tail else s1
    if firstDigitOk base s2 then
      let bs := if base = 0 then detectBase s2 else (base, s2)
      convertDigits x base bs.1 negative bs.2
    else (x, -1)

/-- The function `decodeBase(value, base)`: a default-constructed `result` (zero)
is passed to `mpz_set_str`, whose status is discarded, and is returned. -/
def decodeBase (value : Str) (base : Int) : Int :=
  (mpz_set_str 0 (c_str value) base).1

/-! ## The interpolation formula as the specification writes it -/

/-- The numerator of the spec's formula for term `i`: the product of `-x_j`
over the positions `j ≠ i`. -/
def specNum (shares : List Share) (i : Nat) : Int :=
  ∏ j in (Finset.range shares.length).erase i, -(at_ shares j).1

/-- The denominator of the spec's formula for term `i`: the product of
`x_i - x_j` over the positions `j ≠ i`. -/
def specDen (shares : List Share) (i : Nat) : Int :=
  ∏ j in (Finset.range shares.length).erase i, ((at_ shares i).1 - (at_ shares j).1)

/-- The spec's formula: the sum over `i` of the truncated quotients. -/
def specSum (shares : List Share) : Int :=
  ∑ i in Finset.range shares.length,
    Int.tdiv ((at_ shares i).2 * specNum shares i) (specDen shares i)

/-! ## The enumeration as the specification writes it -/

/-- The `k`-element selections from a list, each in list order, those containing
the head before those that do not: lexicographic order of positions. -/
def selections {α : Type} : Nat → List α → List (List α)
  | 0, _ => [[]]
  | _ + 1, [] => []
  | k + 1, a :: l => (selections k l).map (fun t => a :: t) ++ selections (k + 1) l

/-- The position tuples `i_1 < i_2 < ... < i_k` below `n`, in lexicographic order. -/
def positionTuples (n k : Nat) : List (List Nat) :=
  selections k (List.range n)

/-! ## Vocabulary for the statements about the analysis -/

/-- The entries of a map are in strictly ascending key order. -/
def keysSorted {β : Type} (m : List (Str × β)) : Prop :=
  (m.map Prod.fst).Pairwise (fun a b => strLt a b = true)

/-- The key under which the tally loop files a subset: the decimal string of its
interpolated value, when the interpolation succeeds. -/
def keyOf (comb : List Share) : Option Str :=
  (lagrangeInterpolationAtZero comb).map get_str

/-- The subsets among `combs` whose interpolation succeeds with the decimal
string `s`, in enumeration order. -/
def supporters (combs : List (List Share)) (s : Str) : List (List Share) :=
  combs.filter (fun c => decide (keyOf c = some s))

/-- The number of subsets among `combs` that interpolate to the integer `z`. -/
def tallyOf (combs : List (List Share)) (z : Int) : Nat :=
  (combs.filter (fun c => decide (lagrangeInterpolationAtZero c = some z))).length

/-- The position, in enumeration order, of the first subset among `combs` that
interpolates to `z` (the number of subsets when there is none). -/
def firstSupport (combs : List (List Share)) (z : Int) : Nat :=
  combs.findIdx (fun c => decide (lagrangeInterpolationAtZero c = some z))

/-- The shares `(1, y 1), (2, y 2), ..., (k, y k)` at the consecutive indices
`1..k`, in that order. -/
def consecutiveShares (y : Nat → Int) (k : Nat) : List Share :=
  (List.range k).map (fun i => (((i + 1 : Nat) : Int), y (i + 1)))

open Finset Polynomial

/-! ## Interpolation: the loops compute the product formula -/

theorem prod_erase_eq_ite (n i : Nat) (f : Nat → Int) :
    ∏ j in (Finset.range n).erase i, f j = ∏ j in Finset.range n, if i = j then 1 else f j := by
  rw [← Finset.prod_erase (Finset.range n) (a := i) (f := fun j => if i = j then 1 else f j)
    (by simp)]
  apply Finset.prod_congr rfl
  intro j hj
  have : j ≠ i := (Finset.mem_erase.mp hj).1
  simp [Ne.symm this]

theorem foldl_innerStep (shares : List Share) (i n : Nat) :
    (List.range n).foldl (innerStep shares i) (1, 1) =
      (∏ j in Finset.range n, (if i = j then 1 else -(at_ shares j).1),
       ∏ j in Finset.range n, (if i = j then 1 else (at_ shares i).1 - (at_ shares j).1)) := by
  induction n with
  | zero => simp
  | succ n ih =>
    rw [List.range_succ, List.foldl_append, ih]
    simp only [List.foldl_cons, List.foldl_nil, innerStep, Finset.prod_range_succ]
    split <;> simp

theorem numDen_eq (shares : List Share) (i : Nat) :
    numDen shares i = (specNum shares i, specDen shares i) := by
  simp only [numDen, specNum, specDen, foldl_innerStep, prod_erase_eq_ite]

theorem termAt_eq (shares : List Share) (i : Nat) :
    termAt shares i = if specDen shares i = 0 then none
      else some (Int.tdiv ((at_ shares i).2 * specNum shares i) (specDen shares i)) := by
  simp only [termAt, numDen_eq]

theorem foldl_outerStep_none (shares : List Share) (l : List Nat) :
    l.foldl (outerStep shares) none = none := by
  induction l with
  | nil => rfl
  | cons a l ih => simpa [outerStep] using ih

theorem foldl_outerStep_some (shares : List Share) (n : Nat) (a : Int)
    (h : ∀ i, i < n → specDen shares i ≠ 0) :
    (List.range n).foldl (outerStep shares) (some a) =
      some (a + ∑ i in Finset.range n,
        Int.tdiv ((at_ shares i).2 * specNum shares i) (specDen shares i)) := by
  induction n with
  | zero => simp
  | succ n ih =>
    rw [List.range_succ, List.foldl_append, ih (fun i hi => h i (Nat.lt_succ_of_lt hi))]
    simp only [List.foldl_cons, List.foldl_nil, outerStep, termAt_eq, h n (Nat.lt_succ_self n),
      if_false, Finset.sum_range_succ, add_assoc]

theorem foldl_outerStep_fail (shares : List Share) (n : Nat) (a : Option Int)
    (h : ∃ i, i < n ∧ specDen shares i = 0) :
    (List.range n).foldl (outerStep shares) a = none := by
  induction n generalizing a with
  | zero => obtain ⟨i, hi, _⟩ := h; omega
  | succ n ih =>
    rw [List.range_succ, List.foldl_append]
    obtain ⟨i, hi, hz⟩ := h
    by_cases hin : i < n
    · rw [ih a ⟨i, hin, hz⟩]; rfl
    · have : i = n := by omega
      subst this
      simp only [List.foldl_cons, List.foldl_nil, outerStep, termAt_eq, hz, if_true]
      cases (List.range i).foldl (outerStep shares) a <;> rfl

theorem at_fst (shares : List Share) (i : Nat) (hi : i < shares.length) :
    (shares.map Prod.fst)[i]? = some (at_ shares i).1 := by
  simp [at_, List.getElem?_eq_getElem hi]

theorem specDen_eq_zero_iff (shares : List Share) (i : Nat) :
    specDen shares i = 0 ↔
      ∃ j, j < shares.length ∧ j ≠ i ∧ (at_ shares i).1 = (at_ shares j).1 := by
  simp only [specDen, Finset.prod_eq_zero_iff, Finset.mem_erase, Finset.mem_range, sub_eq_zero]
  constructor
  · rintro ⟨j, ⟨h1, h2⟩, h3⟩; exact ⟨j, h2, h1, h3⟩
  · rintro ⟨j, h2, h1, h3⟩; exact ⟨j, ⟨h1, h2⟩, h3⟩

theorem nodup_iff_at (shares : List Share) :
    (shares.map Prod.fst).Nodup ↔
      ∀ i j, i < shares.length → j < shares.length → i ≠ j →
        (at_ shares i).1 ≠ (at_ shares j).1 := by
  rw [List.nodup_iff_getElem?_ne_getElem?]
  constructor
  · intro h i j hi hj hij e
    rcases Nat.lt_or_gt_of_ne hij with hlt | hgt
    · exact h i j hlt (by simpa using hj) (by rw [at_fst _ _ hi, at_fst _ _ hj, e])
    · exact h j i hgt (by simpa using hi) (by rw [at_fst _ _ hi, at_fst _ _ hj, e])
  · intro h i j hij hj e
    have hj' : j < shares.length := by simpa using hj
    have hi' : i < shares.length := by omega
    rw [at_fst _ _ hi', at_fst _ _ hj'] at e
    exact h i j hi' hj' (Nat.ne_of_lt hij) (Option.some.inj e)

theorem exists_den_zero_iff (shares : List Share) :
    (∃ i, i < shares.length ∧ specDen shares i = 0) ↔ ¬ (shares.map Prod.fst).Nodup := by
  rw [nodup_iff_at]
  push_neg
  constructor
  · rintro ⟨i, hi, hz⟩
    obtain ⟨j, hj, hne, he⟩ := (specDen_eq_zero_iff shares i).mp hz
    exact ⟨i, j, hi, hj, Ne.symm hne, he⟩
  · rintro ⟨i, j, hi, hj, hne, he⟩
    exact ⟨i, hi, (specDen_eq_zero_iff shares i).mpr ⟨j, hj, Ne.symm hne, he⟩⟩

theorem lagrange_of_nodup (shares : List Share) (h : (shares.map Prod.fst).Nodup) :
    lagrangeInterpolationAtZero shares = some (specSum shares) := by
  have h' : ∀ i, i < shares.length → specDen shares i ≠ 0 := by
    intro i hi hz
    exact (exists_den_zero_iff shares).mp ⟨i, hi, hz⟩ h
  rw [lagrangeInterpolationAtZero, foldl_outerStep_some shares _ 0 h', zero_add, specSum]

theorem lagrange_of_dup (shares : List Share) (h : ¬ (shares.map Prod.fst).Nodup) :
    lagrangeInterpolationAtZero shares = none :=
  foldl_outerStep_fail shares _ _ ((exists_den_zero_iff shares).mpr h)

theorem eval_zero_basis (shares : List Share) (i : Nat) :
    (Lagrange.basis (Finset.range shares.length) (fun j => ((at_ shares j).1 : ℚ)) i).eval 0
      = (specNum shares i : ℚ) / (specDen shares i : ℚ) := by
  simp only [Lagrange.basis, Lagrange.basisDivisor, Polynomial.eval_prod, Polynomial.eval_mul,
    Polynomial.eval_C, Polynomial.eval_sub, Polynomial.eval_X, specNum, specDen,
    Finset.prod_mul_distrib, Finset.prod_inv_distrib, Int.cast_prod, Int.cast_neg, Int.cast_sub,
    zero_sub]
  rw [div_eq_mul_inv, mul_comm]

theorem rational_sum_eq_eval_zero (f : Polynomial ℤ) (shares : List Share)
    (hdeg : f.natDegree < shares.length) (hnd : (shares.map Prod.fst).Nodup)
    (hon : ∀ s ∈ shares, s.2 = f.eval s.1) :
    ∑ i in Finset.range shares.length,
        (((at_ shares i).2 * specNum shares i : ℤ) : ℚ) / (specDen shares i : ℚ)
      = ((f.eval 0 : ℤ) : ℚ) := by
  set F : Polynomial ℚ := f.map (Int.castRingHom ℚ) with hF
  set v : Nat → ℚ := fun j => ((at_ shares j).1 : ℚ) with hv
  have hinj : Set.InjOn v (Finset.range shares.length : Finset Nat) := by
    intro a ha b hb hab
    by_contra hne
    have ha' : a < shares.length := by simpa using ha
    have hb' : b < shares.length := by simpa using hb
    exact (nodup_iff_at shares).mp hnd a b ha' hb' hne (by simpa [hv] using hab)
  have hdegF : F.degree < ((Finset.range shares.length).card : WithBot ℕ) := by
    rw [Finset.card_range]
    calc F.degree ≤ f.degree := Polynomial.degree_map_le
      _ ≤ (f.natDegree : WithBot ℕ) := Polynomial.degree_le_natDegree
      _ < (shares.length : WithBot ℕ) := by exact_mod_cast hdeg
  have key := Lagrange.eq_interpolate hinj hdegF
  have hval : ∀ i, i < shares.length → F.eval (v i) = (((at_ shares i).2 : ℤ) : ℚ) := by
    intro i hi
    have hmem : at_ shares i ∈ shares := by
      simp only [at_, List.getD_eq_getElem _ _ hi]
      exact List.getElem_mem hi
    rw [hon _ hmem, hF, hv]
    simp
  have h0 : F.eval 0 = ((f.eval 0 : ℤ) : ℚ) := by
    rw [hF]; simp
  rw [← h0, key, Lagrange.interpolate_apply, Polynomial.eval_finset_sum]
  apply Finset.sum_congr rfl
  intro i hi
  rw [Polynomial.eval_mul, Polynomial.eval_C, eval_zero_basis, hval i (by simpa using hi)]
  push_cast
  ring

/-! ## Enumeration of the subsets -/

theorem genLoop_of_le (k : Int) (rest current : List Share) (combs : List (List Share))
    (hk : k ≤ current.length) : genLoop k rest current combs = combs := by
  induction rest generalizing current combs with
  | nil => rfl
  | cons s rest ih =>
    have h1 : ¬ (((current ++ [s]).length : Int) = k) := by
      simp only [List.length_append, List.length_singleton]; push_cast; omega
    have h2 : k ≤ ((current ++ [s]).length : Int) := by
      simp only [List.length_append, List.length_singleton]; push_cast; omega
    simp only [genLoop, h1, if_false]
    rw [ih (current ++ [s]) combs h2, ih current combs hk]

theorem genLoop_eq (rest : List Share) (m : Nat) (k : Int) (current : List Share)
    (combs : List (List Share)) (hk : k = current.length + (m + 1 : Nat)) :
    genLoop k rest current combs =
      combs ++ (selections (m + 1) rest).map (fun t => current ++ t) := by
  induction rest generalizing current combs m with
  | nil => simp [genLoop, selections]
  | cons s rest ih =>
    cases m with
    | zero =>
      have h1 : ((current ++ [s]).length : Int) = k := by
        simp only [List.length_append, List.length_singleton]; push_cast; omega
      simp only [genLoop, h1, if_true]
      rw [ih 0 current _ hk]
      simp [selections]
    | succ m =>
      have h1 : ¬ (((current ++ [s]).length : Int) = k) := by
        simp only [List.length_append, List.length_singleton]; push_cast; omega
      have h2 : k = ((current ++ [s]).length : Int) + (m + 1 : Nat) := by
        simp only [List.length_append, List.length_singleton]; push_cast; omega
      simp only [genLoop, h1, if_false]
      rw [ih m (current ++ [s]) combs h2, ih (m + 1) current _ hk]
      simp [selections, List.map_append, Function.comp_def]

theorem combinations_eq_selections (shares : List Share) (k : Nat) :
    combinations shares (k : Int) = selections k shares := by
  cases k with
  | zero => simp [combinations, generateCombinations, selections]
  | succ m =>
    have h1 : ¬ ((([] : List Share).length : Int) = ((m + 1 : Nat) : Int)) := by
      simp only [List.length_nil]; push_cast; omega
    simp only [combinations, generateCombinations, h1, if_false, List.drop_zero]
    rw [genLoop_eq shares m _ [] [] (by simp)]
    simp

theorem combinations_of_neg (shares : List Share) (k : Int) (hk : k < 0) :
    combinations shares k = [] := by
  have h1 : ¬ ((([] : List Share).length : Int) = k) := by
    simp only [List.length_nil]; push_cast; omega
  simp only [combinations, generateCombinations, h1, if_false]
  exact genLoop_of_le k _ [] [] (by simp only [List.length_nil]; push_cast; omega)

theorem length_selections {α : Type} (k : Nat) (l : List α) :
    (selections k l).length = Nat.choose l.length k := by
  induction l generalizing k with
  | nil => cases k <;> simp [selections]
  | cons a l ih =>
    cases k with
    | zero => simp [selections]
    | succ k =>
      simp [selections, ih, Nat.choose_succ_succ]

theorem selections_map {α β : Type} (f : α → β) (k : Nat) (l : List α) :
    selections k (l.map f) = (selections k l).map (fun t => t.map f) := by
  induction l generalizing k with
  | nil => cases k <;> simp [selections]
  | cons a l ih =>
    cases k with
    | zero => simp [selections]
    | succ k => simp [selections, ih, Function.comp_def]

theorem map_at_range (shares : List Share) :
    (List.range shares.length).map (at_ shares) = shares := by
  apply List.ext_getElem
  · simp
  · intro i h1 h2
    simp [at_, List.getElem?_eq_getElem h2]

theorem mem_selections_range' (m : Nat) :
    ∀ (k s : Nat) (t : List Nat), t ∈ selections k (List.range' s m) ↔
      t.length = k ∧ t.Sorted (fun a b => a < b) ∧ ∀ i ∈ t, s ≤ i ∧ i < s + m := by
  induction m with
  | zero =>
    intro k s t
    cases k with
    | zero =>
      simp only [List.range'_zero, selections, List.mem_singleton, List.length_eq_zero]
      constructor
      · rintro rfl; simp
      · exact fun h => h.1
    | succ k =>
      simp only [List.range'_zero, selections, List.not_mem_nil, false_iff]
      rintro ⟨hl, _, hb⟩
      cases t with
      | nil => simp at hl
      | cons a t => have := hb a (List.mem_cons_self _ _); omega
  | succ m ih =>
    intro k s t
    cases k with
    | zero =>
      simp only [selections, List.mem_singleton, List.length_eq_zero]
      constructor
      · rintro rfl; simp
      · exact fun h => h.1
    | succ k =>
      simp only [List.range'_succ, selections, List.mem_append, List.mem_map, ih]
      constructor
      · rintro (⟨u, ⟨hl, hs, hb⟩, rfl⟩ | ⟨hl, hs, hb⟩)
        · refine ⟨by simp [hl], ?_, ?_⟩
          · refine List.sorted_cons.mpr ⟨fun b hb' => ?_, hs⟩
            have := hb b hb'; omega
          · intro i hi
            rcases List.mem_cons.mp hi with rfl | hi
            · omega
            · have := hb i hi; omega
        · exact ⟨hl, hs, fun i hi => by have := hb i hi; omega⟩
      · rintro ⟨hl, hs, hb⟩
        cases t with
        | nil => simp at hl
        | cons a u =>
          have hsu := List.sorted_cons.mp hs
          by_cases ha : a = s
          · left
            refine ⟨u, ⟨by simpa using hl, hsu.2, fun i hi => ?_⟩, by rw [ha]⟩
            have h1 := hsu.1 i hi
            have h2 := hb i (List.mem_cons_of_mem _ hi)
            omega
          · right
            refine ⟨hl, hs, fun i hi => ?_⟩
            have h2 := hb i hi
            rcases List.mem_cons.mp hi with rfl | hi'
            · omega
            · have h1 := hsu.1 i hi'
              have h3 := hb a (List.mem_cons_self _ _)
              omega

theorem sorted_selections_range' (m : Nat) :
    ∀ (k s : Nat), (selections k (List.range' s m)).Sorted (List.Lex (fun a b => a < b)) := by
  induction m with
  | zero =>
    intro k s
    cases k <;> simp [selections, List.Sorted]
  | succ m ih =>
    intro k s
    cases k with
    | zero => simp [selections, List.Sorted]
    | succ k =>
      simp only [List.range'_succ, selections, List.Sorted]
      rw [List.pairwise_append]
      refine ⟨?_, ih (k + 1) (s + 1), ?_⟩
      · rw [List.pairwise_map]
        exact (ih k (s + 1)).imp (fun h => List.Lex.cons h)
      · intro a ha b hb
        obtain ⟨u, _, rfl⟩ := List.mem_map.mp ha
        obtain ⟨hl, _, hbd⟩ := (mem_selections_range' m (k + 1) (s + 1) b).mp hb
        cases b with
        | nil => simp at hl
        | cons c b =>
          have := hbd c (List.mem_cons_self _ _)
          exact List.Lex.rel (by omega)

theorem mem_positionTuples (n k : Nat) (t : List Nat) :
    t ∈ positionTuples n k ↔
      t.length = k ∧ t.Sorted (fun a b => a < b) ∧ ∀ i ∈ t, i < n := by
  rw [positionTuples, List.range_eq_range', mem_selections_range']
  simp

theorem combinations_eq_positions (shares : List Share) (k : Nat) :
    combinations shares (k : Int) =
      (positionTuples shares.length k).map (fun t => t.map (at_ shares)) := by
  rw [combinations_eq_selections, positionTuples, ← selections_map, map_at_range]
/-! ## Decimal strings and the key order -/

theorem digitChar_toNat (d : Nat) (h : d < 10) : (Nat.digitChar d).toNat - 48 = d := by
  interval_cases d <;> rfl

theorem digitChar_ne_minus (d : Nat) (h : d < 10) : Nat.digitChar d ≠ '-' := by
  interval_cases d <;> decide

theorem decDigits_value (fuel : Nat) :
    ∀ n, n < fuel → (decDigits fuel n).foldl (fun acc c => 10 * acc + (c.toNat - 48)) 0 = n := by
  induction fuel with
  | zero => intro n h; omega
  | succ fuel ih =>
    intro n h
    by_cases h10 : n < 10
    · simp [decDigits, h10, digitChar_toNat n h10]
    · simp only [decDigits, h10, if_false, List.foldl_append, List.foldl_cons, List.foldl_nil]
      rw [ih (n / 10) (by omega), digitChar_toNat _ (Nat.mod_lt _ (by decide))]
      omega

theorem decDigits_no_minus (fuel : Nat) : ∀ n, '-' ∉ decDigits fuel n := by
  induction fuel with
  | zero => intro n; simp [decDigits]
  | succ fuel ih =>
    intro n
    by_cases h10 : n < 10
    · simp only [decDigits, h10, if_true, List.mem_singleton]
      exact fun h => digitChar_ne_minus n h10 h.symm
    · simp only [decDigits, h10, if_false, List.mem_append, List.mem_singleton, not_or]
      exact ⟨ih _, fun h => digitChar_ne_minus _ (Nat.mod_lt _ (by decide)) h.symm⟩

theorem decDigits_inj (a b : Nat) (h : decDigits (a + 1) a = decDigits (b + 1) b) : a = b := by
  have ha := decDigits_value (a + 1) a (Nat.lt_succ_self a)
  have hb := decDigits_value (b + 1) b (Nat.lt_succ_self b)
  rw [h, hb] at ha
  exact ha.symm

theorem get_str_injective : Function.Injective get_str := by
  intro a b h
  unfold get_str at h
  by_cases ha : a < 0 <;> by_cases hb : b < 0
  · simp only [ha, hb, if_true, List.cons.injEq, true_and] at h
    have := decDigits_inj _ _ h
    omega
  · simp only [ha, hb, if_true, if_false] at h
    exact absurd (h ▸ List.mem_cons_self _ _) (decDigits_no_minus _ _)
  · simp only [ha, hb, if_true, if_false] at h
    exact absurd (h ▸ List.mem_cons_self _ _) (decDigits_no_minus _ _)
  · simp only [ha, hb, if_false] at h
    have := decDigits_inj _ _ h
    omega

theorem get_str_ne_nil (z : Int) : get_str z ≠ [] := by
  unfold get_str
  split
  · simp
  · simp only [decDigits]
    split
    · simp
    · simp

theorem strLt_irrefl : ∀ a : Str, strLt a a = false
  | [] => rfl
  | c :: a => by simp [strLt, strLt_irrefl a]

theorem strLt_trans : ∀ a b c : Str, strLt a b = true → strLt b c = true → strLt a c = true
  | [], [], _, h, _ => by simp [strLt] at h
  | [], _ :: _, [], _, h => by simp [strLt] at h
  | [], _ :: _, _ :: _, _, _ => by simp [strLt]
  | _ :: _, [], _, h, _ => by simp [strLt] at h
  | _ :: _, _ :: _, [], _, h => by simp [strLt] at h
  | x :: a, y :: b, z :: c, h1, h2 => by
    simp only [strLt] at h1 h2 ⊢
    by_cases hxy : x.toNat < y.toNat
    · by_cases hyz : y.toNat < z.toNat
      · simp [show x.toNat < z.toNat by omega]
      · simp only [hyz, if_false] at h2
        by_cases hzy : z.toNat < y.toNat
        · simp [hzy] at h2
        · simp [show x.toNat < z.toNat by omega]
    · simp only [hxy, if_false] at h1
      by_cases hyx : y.toNat < x.toNat
      · simp [hyx] at h1
      · simp only [hyx, if_false] at h1
        by_cases hyz : y.toNat < z.toNat
        · simp [show x.toNat < z.toNat by omega]
        · simp only [hyz, if_false] at h2
          by_cases hzy : z.toNat < y.toNat
          · simp [hzy] at h2
          · simp only [hzy, if_false] at h2
            simp [show ¬ x.toNat < z.toNat by omega, show ¬ z.toNat < x.toNat by omega,
              strLt_trans a b c h1 h2]

theorem strLt_asymm (a b : Str) (h : strLt a b = true) : strLt b a = false := by
  cases hba : strLt b a with
  | false => rfl
  | true =>
    have := strLt_trans a b a h hba
    rw [strLt_irrefl] at this
    exact absurd this (by decide)

theorem strLt_connex : ∀ a b : Str, strLt a b = false → strLt b a = false → a = b
  | [], [], _, _ => rfl
  | [], _ :: _, h, _ => by simp [strLt] at h
  | _ :: _, [], _, h => by simp [strLt] at h
  | x :: a, y :: b, h1, h2 => by
    simp only [strLt] at h1 h2
    by_cases hxy : x.toNat < y.toNat
    · simp [hxy] at h1
    · by_cases hyx : y.toNat < x.toNat
      · simp [hyx] at h2
      · simp only [hxy, hyx, if_false] at h1 h2
        have hxy' : x = y := by
          apply Char.ext
          apply UInt32.ext
          have : x.toNat = y.toNat := by omega
          exact this
        rw [hxy', strLt_connex a b h1 h2]
/-! ## The maps -/

theorem strLt_ne (a b : Str) (h : a ≠ b) : strLt a b = true ∨ strLt b a = true := by
  by_contra hc
  push_neg at hc
  exact h (strLt_connex a b (by simpa using hc.1) (by simpa using hc.2))

theorem mapUpdate_keys {β : Type} (key : Str) (d : β) (f : β → β) (m : List (Str × β)) :
    ∀ e ∈ mapUpdate key d f m, e.1 = key ∨ ∃ e' ∈ m, e'.1 = e.1 := by
  induction m with
  | nil => intro e he; simp only [mapUpdate, List.mem_singleton] at he; left; rw [he]
  | cons hd rest ih =>
    obtain ⟨k', v⟩ := hd
    intro e he
    simp only [mapUpdate] at he
    split at he
    · rcases List.mem_cons.mp he with rfl | he'
      · left; rfl
      · right; exact ⟨e, he', rfl⟩
    · split at he
      · rcases List.mem_cons.mp he with rfl | he'
        · right; exact ⟨_, List.mem_cons_self _ _, rfl⟩
        · rcases ih e he' with h | ⟨e', he', h⟩
          · left; exact h
          · right; exact ⟨e', List.mem_cons_of_mem _ he', h⟩
      · rcases List.mem_cons.mp he with rfl | he'
        · right; exact ⟨(k', v), List.mem_cons_self _ _, rfl⟩
        · right; exact ⟨e, List.mem_cons_of_mem _ he', rfl⟩

theorem keysSorted_cons {β : Type} (e : Str × β) (m : List (Str × β)) :
    keysSorted (e :: m) ↔ (∀ e' ∈ m, strLt e.1 e'.1 = true) ∧ keysSorted m := by
  rw [keysSorted, List.map_cons, List.pairwise_cons]
  constructor
  · rintro ⟨h1, h2⟩
    exact ⟨fun e' he' => h1 _ (List.mem_map_of_mem _ he'), h2⟩
  · rintro ⟨h1, h2⟩
    refine ⟨fun a ha => ?_, h2⟩
    obtain ⟨e', he', rfl⟩ := List.mem_map.mp ha
    exact h1 e' he'

theorem mapUpdate_sorted {β : Type} (key : Str) (d : β) (f : β → β) (m : List (Str × β))
    (h : keysSorted m) : keysSorted (mapUpdate key d f m) := by
  induction m with
  | nil => simp [mapUpdate, keysSorted]
  | cons hd rest ih =>
    obtain ⟨k', v⟩ := hd
    have hs := (keysSorted_cons _ _).mp h
    simp only [mapUpdate]
    by_cases h1 : strLt key k' = true
    · simp only [h1, if_true]
      refine (keysSorted_cons _ _).mpr ⟨?_, h⟩
      intro e' he'
      rcases List.mem_cons.mp he' with rfl | he''
      · exact h1
      · exact strLt_trans _ _ _ h1 (hs.1 e' he'')
    · simp only [h1, if_false]
      by_cases h2 : strLt k' key = true
      · simp only [h2, if_true]
        refine (keysSorted_cons _ _).mpr ⟨?_, ih hs.2⟩
        intro e' he'
        rcases mapUpdate_keys key d f rest e' he' with hk | ⟨e'', he'', hk⟩
        · rw [hk]; exact h2
        · rw [← hk]; exact hs.1 e'' he''
      · simp only [h2, if_false]
        exact (keysSorted_cons _ _).mpr ⟨hs.1, hs.2⟩

theorem mapGet_of_forall_lt {β : Type} (key : Str) (d : β) (m : List (Str × β))
    (h : ∀ e ∈ m, strLt key e.1 = true) : mapGet key d m = d := by
  induction m with
  | nil => rfl
  | cons hd rest ih =>
    obtain ⟨k', v⟩ := hd
    have h1 : strLt key k' = true := h (k', v) (List.mem_cons_self _ _)
    simp only [mapGet, h1, if_true]
    exact ih (fun e he => h e (List.mem_cons_of_mem _ he))

theorem mapGet_mapUpdate_same {β : Type} (key : Str) (d : β) (f : β → β)
    (m : List (Str × β)) (h : keysSorted m) :
    mapGet key d (mapUpdate key d f m) = f (mapGet key d m) := by
  induction m with
  | nil => simp [mapUpdate, mapGet, strLt_irrefl]
  | cons hd rest ih =>
    obtain ⟨k', v⟩ := hd
    have hs := (keysSorted_cons _ _).mp h
    simp only [mapUpdate]
    by_cases h1 : strLt key k' = true
    · have hrest : mapGet key d rest = d :=
        mapGet_of_forall_lt key d rest (fun e he => strLt_trans _ _ _ h1 (hs.1 e he))
      simp [mapGet, h1, strLt_irrefl, hrest]
    · simp only [h1, if_false]
      by_cases h2 : strLt k' key = true
      · simp [mapGet, h1, h2, ih hs.2]
      · simp [mapGet, h1, h2]

theorem mapGet_mapUpdate_other {β : Type} (key key' : Str) (d : β) (f : β → β)
    (m : List (Str × β)) (hne : key' ≠ key) :
    mapGet key' d (mapUpdate key d f m) = mapGet key' d m := by
  induction m with
  | nil =>
    rcases strLt_ne key' key hne with h | h
    · simp [mapUpdate, mapGet, h]
    · simp [mapUpdate, mapGet, h]
  | cons hd rest ih =>
    obtain ⟨k', v⟩ := hd
    simp only [mapUpdate]
    by_cases h1 : strLt key k' = true
    · simp only [h1, if_true]
      rcases strLt_ne key' key hne with h | h
      · rw [mapGet]; simp only [h, if_true]
      · rw [mapGet]; simp only [h, if_true, ite_self]
    · simp only [h1, if_false]
      by_cases h2 : strLt k' key = true
      · simp only [h2, if_true, mapGet, ih]
      · simp only [h2, if_false]
        have hk : key = k' := strLt_connex key k' (by simpa using h1) (by simpa using h2)
        subst hk
        rcases strLt_ne key' key hne with h | h
        · simp [mapGet, h]
        · simp [mapGet, h]

theorem mapGet_of_mem {β : Type} (s : Str) (c d : β) (m : List (Str × β))
    (h : keysSorted m) (hm : (s, c) ∈ m) : mapGet s d m = c := by
  induction m with
  | nil => simp at hm
  | cons hd rest ih =>
    obtain ⟨k', v⟩ := hd
    have hs := (keysSorted_cons _ _).mp h
    rcases List.mem_cons.mp hm with heq | hm'
    · cases heq
      simp [mapGet, strLt_irrefl]
    · have h1 : strLt k' s = true := hs.1 (s, c) hm'
      simp [mapGet, h1, ih hs.2 hm']

theorem mapGet_mem {β : Type} (s : Str) (d : β) (m : List (Str × β)) :
    mapGet s d m = d ∨ (s, mapGet s d m) ∈ m := by
  induction m with
  | nil => left; rfl
  | cons hd rest ih =>
    obtain ⟨k', v⟩ := hd
    by_cases h1 : strLt s k' = true
    · simp only [mapGet, h1, if_true]
      rcases ih with h | h
      · left; exact h
      · right; exact List.mem_cons_of_mem _ h
    · by_cases h2 : strLt k' s = true
      · simp only [mapGet, h1, h2, if_true, if_false]
        rcases ih with h | h
        · left; exact h
        · right; exact List.mem_cons_of_mem _ h
      · have hk : s = k' := strLt_connex s k' (by simpa using h1) (by simpa using h2)
        subst hk
        right
        simp [mapGet, strLt_irrefl]

/-! ## The selection loop -/

theorem selectBest_spec (m : List (Str × Nat)) :
    ∀ b0 : Str × Nat,
      (b0.2 ≤ (m.foldl selectStep b0).2 ∧ ∀ e ∈ m, e.2 ≤ (m.foldl selectStep b0).2) ∧
      ((m.foldl selectStep b0 = b0 ∧ ∀ e ∈ m, e.2 ≤ b0.2) ∨
        (∃ pre post, m = pre ++ m.foldl selectStep b0 :: post ∧
          (∀ e ∈ pre, e.2 < (m.foldl selectStep b0).2) ∧ b0.2 < (m.foldl selectStep b0).2)) := by
  induction m with
  | nil => intro b0; simp
  | cons e rest ih =>
    intro b0
    simp only [List.foldl_cons]
    by_cases h : e.2 > b0.2
    · have hstep : selectStep b0 e = e := by simp [selectStep, h]
      rw [hstep]
      obtain ⟨⟨h1, h2⟩, h3⟩ := ih e
      refine ⟨⟨by omega, fun e' he' => ?_⟩, Or.inr ?_⟩
      · rcases List.mem_cons.mp he' with rfl | he''
        · exact h1
        · exact h2 e' he''
      · rcases h3 with ⟨h4, _⟩ | ⟨pre, post, h4, h5, h6⟩
        · refine ⟨[], rest, by rw [h4]; rfl, by simp, by rw [h4]; exact h⟩
        · refine ⟨e :: pre, post, by rw [List.cons_append, ← h4], fun e' he' => ?_, by omega⟩
          rcases List.mem_cons.mp he' with rfl | he''
          · exact h6
          · exact h5 e' he''
    · have hstep : selectStep b0 e = b0 := by simp [selectStep, h]
      rw [hstep]
      obtain ⟨⟨h1, h2⟩, h3⟩ := ih b0
      refine ⟨⟨h1, fun e' he' => ?_⟩, ?_⟩
      · rcases List.mem_cons.mp he' with rfl | he''
        · omega
        · exact h2 e' he''
      · rcases h3 with ⟨h4, h5⟩ | ⟨pre, post, h4, h5, h6⟩
        · left
          refine ⟨h4, fun e' he' => ?_⟩
          rcases List.mem_cons.mp he' with rfl | he''
          · omega
          · exact h5 e' he''
        · right
          refine ⟨e :: pre, post, by rw [List.cons_append, ← h4], fun e' he' => ?_, h6⟩
          rcases List.mem_cons.mp he' with rfl | he''
          · omega
          · exact h5 e' he''
/-! ## The tally loop -/

theorem foldl_tallyStep_none (throws : Bool) (combs : List (List Share)) :
    combs.foldl (tallyStep throws) none = none := by
  induction combs with
  | nil => rfl
  | cons c rest ih => simpa [tallyStep] using ih

theorem supporters_cons (c : List Share) (rest : List (List Share)) (s : Str) :
    supporters (c :: rest) s =
      if keyOf c = some s then c :: supporters rest s else supporters rest s := by
  simp only [supporters, List.filter_cons, decide_eq_true_eq]

theorem tally_invariant (throws : Bool) (combs : List (List Share)) :
    ∀ t0 t, combs.foldl (tallyStep throws) (some t0) = some t →
      keysSorted t0.freq → keysSorted t0.sourceMap →
      keysSorted t.freq ∧ keysSorted t.sourceMap ∧
      ∀ s, mapGet s 0 t.freq = mapGet s 0 t0.freq + (supporters combs s).length ∧
        mapGet s [] t.sourceMap = mapGet s [] t0.sourceMap ++ supporters combs s := by
  induction combs with
  | nil =>
    intro t0 t h hf hs
    simp only [List.foldl_nil, Option.some.injEq] at h
    subst h
    exact ⟨hf, hs, fun s => by simp [supporters]⟩
  | cons c rest ih =>
    intro t0 t h hf hs
    simp only [List.foldl_cons] at h
    cases hz : lagrangeInterpolationAtZero c with
    | none =>
      have hk : keyOf c = none := by simp [keyOf, hz]
      cases throws with
      | false =>
        simp only [tallyStep, hz, Bool.false_eq_true, if_false] at h
        rw [foldl_tallyStep_none] at h
        exact Option.noConfusion h
      | true =>
        simp only [tallyStep, hz, if_true] at h
        obtain ⟨h1, h2, h3⟩ := ih t0 t h hf hs
        refine ⟨h1, h2, fun s => ?_⟩
        rw [supporters_cons, hk]
        simpa using h3 s
    | some z =>
      have hk : keyOf c = some (get_str z) := by simp [keyOf, hz]
      simp only [tallyStep, hz] at h
      obtain ⟨h1, h2, h3⟩ := ih _ t h (mapUpdate_sorted _ _ _ _ hf) (mapUpdate_sorted _ _ _ _ hs)
      refine ⟨h1, h2, fun s => ?_⟩
      rw [supporters_cons, hk]
      obtain ⟨h4, h5⟩ := h3 s
      by_cases hs' : s = get_str z
      · subst hs'
        rw [h4, h5, mapGet_mapUpdate_same _ _ _ _ hf, mapGet_mapUpdate_same _ _ _ _ hs]
        simp only [if_true, List.length_cons, List.append_assoc, List.singleton_append]
        exact ⟨by omega, trivial⟩
      · rw [h4, h5, mapGet_mapUpdate_other _ _ _ _ _ hs', mapGet_mapUpdate_other _ _ _ _ _ hs']
        have : ¬ (some (get_str z) = some s) := fun e => hs' (Option.some.inj e).symm
        simp only [this, if_false]
        exact ⟨trivial, trivial⟩

theorem tally_exists (throws : Bool) (combs : List (List Share))
    (h : ∀ c ∈ combs, throws = true ∨ lagrangeInterpolationAtZero c ≠ none) :
    ∀ t0, ∃ t, combs.foldl (tallyStep throws) (some t0) = some t := by
  induction combs with
  | nil => intro t0; exact ⟨t0, rfl⟩
  | cons c rest ih =>
    intro t0
    have hrest := ih (fun c' hc' => h c' (List.mem_cons_of_mem _ hc'))
    simp only [List.foldl_cons]
    cases hz : lagrangeInterpolationAtZero c with
    | none =>
      rcases h c (List.mem_cons_self _ _) with ht | hn
      · subst ht
        simp only [tallyStep, hz, if_true]
        exact hrest t0
      · exact absurd hz hn
    | some z =>
      simp only [tallyStep, hz]
      exact hrest _

theorem mem_selections_sublist {α : Type} (k : Nat) (l t : List α)
    (h : t ∈ selections k l) : t.Sublist l := by
  induction l generalizing k t with
  | nil =>
    cases k with
    | zero => simp only [selections, List.mem_singleton] at h; subst h; exact List.Sublist.refl _
    | succ k => simp [selections] at h
  | cons a l ih =>
    cases k with
    | zero => simp only [selections, List.mem_singleton] at h; subst h; exact List.nil_sublist _
    | succ k =>
      simp only [selections, List.mem_append, List.mem_map] at h
      rcases h with ⟨u, hu, rfl⟩ | h
      · exact (ih k u hu).cons₂ a
      · exact (ih (k + 1) t h).cons a

theorem mem_combinations_sublist (shares : List Share) (k : Int) (c : List Share)
    (h : c ∈ combinations shares k) : c.Sublist shares := by
  by_cases hk : k < 0
  · rw [combinations_of_neg shares k hk] at h
    simp at h
  · obtain ⟨n, rfl⟩ := Int.eq_ofNat_of_zero_le (by omega : 0 ≤ k)
    rw [combinations_eq_selections] at h
    exact mem_selections_sublist n shares c h

theorem mem_combinations_nodup (shares : List Share) (k : Int) (c : List Share)
    (hnd : (shares.map Prod.fst).Nodup) (h : c ∈ combinations shares k) :
    (c.map Prod.fst).Nodup :=
  List.Nodup.sublist ((mem_combinations_sublist shares k c h).map Prod.fst) hnd

theorem tally_total (throws : Bool) (shares : List Share) (k : Int)
    (h : throws = true ∨ (shares.map Prod.fst).Nodup) :
    ∃ t, tally throws (combinations shares k) = some t := by
  apply tally_exists
  intro c hc
  rcases h with h | h
  · left; exact h
  · right
    rw [lagrange_of_nodup c (mem_combinations_nodup shares k c h hc)]
    exact fun e => Option.noConfusion e

/-! ## The analysis -/

theorem supporters_nil_key (combs : List (List Share)) : supporters combs [] = [] := by
  simp only [supporters, List.filter_eq_nil_iff, decide_eq_true_eq]
  intro c _ hc
  simp only [keyOf, Option.map_eq_some'] at hc
  obtain ⟨z, _, hz⟩ := hc
  exact get_str_ne_nil z hz

/-- What the analysis computes, in terms of the subsets filed under each key. -/
theorem analyze_spec (throws : Bool) (shares : List Share) (k : Int)
    (h : throws = true ∨ (shares.map Prod.fst).Nodup) :
    ∃ r, analyze throws shares k = some r ∧
      (∀ s, (supporters (combinations shares k) s).length ≤ r.maxFreq) ∧
      r.maxFreq = (supporters (combinations shares k) r.bestSecret).length ∧
      mapGet r.bestSecret [] r.maps.sourceMap = supporters (combinations shares k) r.bestSecret ∧
      (∀ s, (supporters (combinations shares k) s).length = r.maxFreq → 0 < r.maxFreq →
        s = r.bestSecret ∨ strLt r.bestSecret s = true) ∧
      r.invalid = invalidIndices shares (supporters (combinations shares k) r.bestSecret) := by
  obtain ⟨t, ht⟩ := tally_total throws shares k h
  obtain ⟨hsf, hss, hcount⟩ := tally_invariant throws _ _ t ht (by simp [keysSorted])
    (by simp [keysSorted])
  have hfreq : ∀ s, mapGet s 0 t.freq = (supporters (combinations shares k) s).length := by
    intro s; simpa [mapGet] using (hcount s).1
  have hsrc : ∀ s, mapGet s [] t.sourceMap = supporters (combinations shares k) s := by
    intro s; simpa [mapGet] using (hcount s).2
  obtain ⟨b, hb⟩ : ∃ b, selectBest t.freq = b := ⟨_, rfl⟩
  have hspec := selectBest_spec t.freq ([], 0)
  simp only [show List.foldl selectStep ([], 0) t.freq = b from hb] at hspec
  obtain ⟨⟨_, hmax⟩, hsel⟩ := hspec
  have hle : ∀ s, (supporters (combinations shares k) s).length ≤ b.2 := by
    intro s
    rcases mapGet_mem s 0 t.freq with h0 | hm
    · rw [← hfreq, h0]; exact Nat.zero_le _
    · rw [← hfreq]; exact hmax _ hm
  refine ⟨⟨b.1, b.2, t, invalidIndices shares (mapGet b.1 [] t.sourceMap)⟩, ?_, hle, ?_,
    hsrc _, ?_, ?_⟩
  · simp only [analyze, ht, hb]
  · show b.2 = (supporters (combinations shares k) b.1).length
    rcases hsel with ⟨h1, _⟩ | ⟨pre, post, h1, _, _⟩
    · rw [h1, supporters_nil_key]; rfl
    · have hm : b ∈ t.freq := by rw [h1]; simp
      rw [← hfreq]
      exact (mapGet_of_mem _ _ 0 _ hsf hm).symm
  · intro s hs hpos
    have hs' : (supporters (combinations shares k) s).length = b.2 := hs
    have hpos' : 0 < b.2 := hpos
    show s = b.1 ∨ strLt b.1 s = true
    rcases hsel with ⟨h1, _⟩ | ⟨pre, post, h1, hpre, _⟩
    · rw [h1] at hpos'
      exact absurd hpos' (by decide)
    · have hm : (s, b.2) ∈ t.freq := by
        rcases mapGet_mem s 0 t.freq with h0 | hm
        · rw [hfreq, hs'] at h0; omega
        · rwa [hfreq, hs'] at hm
      rw [h1] at hm hsf
      rcases List.mem_append.mp hm with hp | hp
      · have := hpre _ hp
        simp at this
      · rcases List.mem_cons.mp hp with he | hp'
        · left
          exact congrArg Prod.fst he
        · right
          have hp2 : keysSorted (b :: post) := by
            have := List.pairwise_append.mp (by simpa [keysSorted] using hsf)
            simpa [keysSorted] using this.2.1
          exact ((keysSorted_cons _ _).mp hp2).1 _ hp'
  · show invalidIndices shares (mapGet b.1 [] t.sourceMap) = _
    rw [hsrc]

theorem keyOf_eq_get_str (c : List Share) (z : Int) :
    keyOf c = some (get_str z) ↔ lagrangeInterpolationAtZero c = some z := by
  simp only [keyOf, Option.map_eq_some']
  constructor
  · rintro ⟨a, ha, he⟩
    rw [ha, get_str_injective he]
  · intro h
    exact ⟨z, h, rfl⟩

theorem supporters_length_get_str (combs : List (List Share)) (z : Int) :
    (supporters combs (get_str z)).length = tallyOf combs z := by
  simp only [supporters, tallyOf, keyOf_eq_get_str]

theorem tallyOf_cons (c : List Share) (cs : List (List Share)) (z : Int) :
    tallyOf (c :: cs) z =
      (if lagrangeInterpolationAtZero c = some z then 1 else 0) + tallyOf cs z := by
  simp only [tallyOf, List.filter_cons, decide_eq_true_eq]
  split
  · simp [Nat.add_comm]
  · simp

theorem tallyOf_pos_iff (combs : List (List Share)) (z : Int) :
    0 < tallyOf combs z ↔ ∃ c ∈ combs, lagrangeInterpolationAtZero c = some z := by
  simp only [tallyOf, List.length_pos_iff_exists_mem, List.mem_filter, decide_eq_true_eq]

theorem supporters_pos (combs : List (List Share)) (s : Str)
    (h : 0 < (supporters combs s).length) :
    ∃ z, s = get_str z ∧ ∃ c ∈ combs, lagrangeInterpolationAtZero c = some z := by
  obtain ⟨c, hc⟩ := List.length_pos_iff_exists_mem.mp h
  simp only [supporters, List.mem_filter, decide_eq_true_eq, keyOf, Option.map_eq_some'] at hc
  obtain ⟨hc1, z, hz, he⟩ := hc
  exact ⟨z, he.symm, c, hc1, hz⟩

/-- The winner in terms of interpolated values, when some subset interpolates. -/
theorem analyze_winner (throws : Bool) (shares : List Share) (k : Int)
    (h : throws = true ∨ (shares.map Prod.fst).Nodup)
    (hc : ∃ c ∈ combinations shares k, ∃ z, lagrangeInterpolationAtZero c = some z) :
    ∃ r z, analyze throws shares k = some r ∧ r.bestSecret = get_str z ∧
      0 < tallyOf (combinations shares k) z ∧
      (∀ s, tallyOf (combinations shares k) s ≤ tallyOf (combinations shares k) z) ∧
      r.maxFreq = tallyOf (combinations shares k) z ∧
      mapGet r.bestSecret [] r.maps.sourceMap = supporters (combinations shares k) (get_str z) ∧
      (∀ s, tallyOf (combinations shares k) s = tallyOf (combinations shares k) z →
        s = z ∨ strLt (get_str z) (get_str s) = true) := by
  obtain ⟨r, hr, hle, hmax, hsrc, htie, _⟩ := analyze_spec throws shares k h
  obtain ⟨c0, hc0, z0, hz0⟩ := hc
  have h0 : 0 < tallyOf (combinations shares k) z0 := (tallyOf_pos_iff _ _).mpr ⟨c0, hc0, hz0⟩
  have hpos : 0 < r.maxFreq := by
    have := hle (get_str z0)
    rw [supporters_length_get_str] at this
    omega
  obtain ⟨z, hz, _⟩ := supporters_pos _ _ (hmax ▸ hpos)
  have hmz : r.maxFreq = tallyOf (combinations shares k) z := by
    rw [hmax, hz, supporters_length_get_str]
  refine ⟨r, z, hr, hz, by omega, fun s => ?_, hmz, hz ▸ hsrc, fun s hs => ?_⟩
  · rw [← hmz, ← supporters_length_get_str]; exact hle _
  · rcases htie (get_str s) (by rw [supporters_length_get_str, hs, hmz]) hpos with he | hlt
    · left; exact get_str_injective (he.trans hz)
    · right; rw [← hz]; exact hlt

/-! ## The index sets -/

theorem mem_setInsert (x y : Int) (l : List Int) : y ∈ setInsert x l ↔ y = x ∨ y ∈ l := by
  induction l with
  | nil => simp [setInsert]
  | cons a l ih =>
    simp only [setInsert]
    split
    · simp
    · split
      · simp only [List.mem_cons, ih]
        tauto
      · have : a = x := by omega
        subst this
        simp

theorem setInsert_sorted (x : Int) (l : List Int) (h : l.Sorted (fun a b => a < b)) :
    (setInsert x l).Sorted (fun a b => a < b) := by
  induction l with
  | nil => simp [setInsert]
  | cons a l ih =>
    have hs := List.sorted_cons.mp h
    simp only [setInsert]
    split
    · rename_i hxa
      refine List.sorted_cons.mpr ⟨fun b hb => ?_, h⟩
      rcases List.mem_cons.mp hb with rfl | hb'
      · exact hxa
      · exact lt_trans hxa (hs.1 b hb')
    · split
      · rename_i _ hax
        refine List.sorted_cons.mpr ⟨fun b hb => ?_, ih hs.2⟩
        rcases (mem_setInsert x b l).mp hb with rfl | hb'
        · exact hax
        · exact hs.1 b hb'
      · exact h

theorem foldl_setInsert_mem (c : List Share) (acc : List Int) (y : Int) :
    y ∈ c.foldl (fun a s => setInsert s.1 a) acc ↔ y ∈ acc ∨ y ∈ c.map Prod.fst := by
  induction c generalizing acc with
  | nil => simp
  | cons s c ih =>
    simp only [List.foldl_cons, ih, mem_setInsert, List.map_cons, List.mem_cons]
    tauto

theorem foldl_setInsert_sorted (c : List Share) (acc : List Int)
    (h : acc.Sorted (fun a b => a < b)) :
    (c.foldl (fun a s => setInsert s.1 a) acc).Sorted (fun a b => a < b) := by
  induction c generalizing acc with
  | nil => exact h
  | cons s c ih => exact ih _ (setInsert_sorted _ _ h)

theorem mem_allIndices (shares : List Share) (y : Int) :
    y ∈ allIndices shares ↔ y ∈ shares.map Prod.fst := by
  simp [allIndices, foldl_setInsert_mem]

theorem foldl_validIndices_mem (w : List (List Share)) (acc : List Int) (y : Int) :
    y ∈ w.foldl (fun acc comb => comb.foldl (fun a s => setInsert s.1 a) acc) acc ↔
      y ∈ acc ∨ ∃ c ∈ w, y ∈ c.map Prod.fst := by
  induction w generalizing acc with
  | nil => simp
  | cons c w ih =>
    simp only [List.foldl_cons, ih, foldl_setInsert_mem, List.mem_cons, exists_eq_or_imp]
    tauto

theorem mem_validIndices (w : List (List Share)) (y : Int) :
    y ∈ validIndices w ↔ ∃ c ∈ w, y ∈ c.map Prod.fst := by
  simp [validIndices, foldl_validIndices_mem]

theorem mem_invalidIndices (shares : List Share) (w : List (List Share)) (y : Int) :
    y ∈ invalidIndices shares w ↔
      y ∈ shares.map Prod.fst ∧ ¬ ∃ c ∈ w, y ∈ c.map Prod.fst := by
  simp only [invalidIndices, List.mem_filter, decide_eq_true_eq, mem_allIndices,
    mem_validIndices]

theorem invalidIndices_sorted (shares : List Share) (w : List (List Share)) :
    (invalidIndices shares w).Sorted (fun a b => a < b) := by
  have h : (allIndices shares).Sorted (fun a b => a < b) :=
    foldl_setInsert_sorted shares [] List.sorted_nil
  exact List.Pairwise.filter _ h

/-! ## The claims -/

theorem natDegree_sq_add_one : (X ^ 2 + C 1 : Polynomial ℤ).natDegree = 2 :=
  Polynomial.natDegree_X_pow_add_C

theorem on_sq_add_one :
    ∀ s ∈ [((1 : Int), (2 : Int)), (2, 5), (4, 17)],
      s.2 = (X ^ 2 + C 1 : Polynomial ℤ).eval s.1 := by
  intro s hs
  simp only [List.mem_cons, List.mem_singleton, List.not_mem_nil, or_false] at hs
  rcases hs with rfl | rfl | rfl <;> simp

/-- C1, evaluated on the code: the three shares `(1,2), (2,5), (4,17)` have
pairwise distinct x-values and lie on the integer polynomial `x^2 + 1` of degree
`2 = k - 1`, whose constant term is `1`, yet `lagrangeInterpolationAtZero`
returns `0`: the round trip does not give `f(0)`. -/
theorem lagrange_misses_constant_term :
    ∃ f : Polynomial ℤ, f.natDegree < 3 ∧
      (∀ s ∈ [((1 : Int), (2 : Int)), (2, 5), (4, 17)], s.2 = f.eval s.1) ∧
      ([((1 : Int), (2 : Int)), (2, 5), (4, 17)].map Prod.fst).Nodup ∧
      f.eval 0 = 1 ∧
      lagrangeInterpolationAtZero [(1, 2), (2, 5), (4, 17)] = some 0 :=
  ⟨X ^ 2 + C 1, by rw [natDegree_sq_add_one]; decide, on_sq_add_one, by decide, by simp,
    by decide⟩

/-- C2 as stated fails: for the shares `(1,2), (2,5), (4,17)` on `x^2 + 1`
(distinct x-values, degree `2 = k - 1`) the first term has `num = 8`, `den = 3`
and `y * num = 16`, which `3` does not divide. -/
theorem per_term_division_not_exact :
    ∃ f : Polynomial ℤ, f.natDegree < 3 ∧
      (∀ s ∈ [((1 : Int), (2 : Int)), (2, 5), (4, 17)], s.2 = f.eval s.1) ∧
      ([((1 : Int), (2 : Int)), (2, 5), (4, 17)].map Prod.fst).Nodup ∧
      numDen [(1, 2), (2, 5), (4, 17)] 0 = (8, 3) ∧
      ¬ ((numDen [(1, 2), (2, 5), (4, 17)] 0).2 ∣
          (at_ [(1, 2), (2, 5), (4, 17)] 0).2 * (numDen [(1, 2), (2, 5), (4, 17)] 0).1) :=
  ⟨X ^ 2 + C 1, by rw [natDegree_sq_add_one]; decide, on_sq_add_one, by decide, by decide,
    by decide⟩

/-- C2, amended: for `k` shares with pairwise distinct x-values on an integer
polynomial `f` of degree at most `k - 1`, the function returns an integer `z`,
and the remainders `r_i` of the per-term truncating divisions of `y_i * num_i` by
`den_i` satisfy `f(0) = z + sum_i r_i / den_i` over the rationals: the exact
per-term quotients sum to `f(0)`, while single remainders need not vanish. -/
theorem remainder_fractions_sum_to_gap (f : Polynomial ℤ) (shares : List Share)
    (hdeg : f.natDegree < shares.length) (hnd : (shares.map Prod.fst).Nodup)
    (hon : ∀ s ∈ shares, s.2 = f.eval s.1) :
    ∃ z, lagrangeInterpolationAtZero shares = some z ∧
      ((f.eval 0 : ℤ) : ℚ) = (z : ℚ) + ∑ i in Finset.range shares.length,
        ((Int.tmod ((at_ shares i).2 * (numDen shares i).1) (numDen shares i).2 : ℤ) : ℚ)
          / (((numDen shares i).2 : ℤ) : ℚ) := by
  refine ⟨specSum shares, lagrange_of_nodup shares hnd, ?_⟩
  rw [← rational_sum_eq_eval_zero f shares hdeg hnd hon, specSum, Int.cast_sum,
    ← Finset.sum_add_distrib]
  apply Finset.sum_congr rfl
  intro i hi
  have hd : specDen shares i ≠ 0 := fun hz =>
    (exists_den_zero_iff shares).mp ⟨i, by simpa using hi, hz⟩ hnd
  have hdq : (specDen shares i : ℚ) ≠ 0 := by exact_mod_cast hd
  simp only [numDen_eq]
  have h := Int.tdiv_add_tmod ((at_ shares i).2 * specNum shares i) (specDen shares i)
  have hq : ((((at_ shares i).2 * specNum shares i : ℤ)) : ℚ) =
      (specDen shares i : ℚ) *
        ((Int.tdiv ((at_ shares i).2 * specNum shares i) (specDen shares i) : ℤ) : ℚ)
      + ((Int.tmod ((at_ shares i).2 * specNum shares i) (specDen shares i) : ℤ) : ℚ) := by
    exact_mod_cast h.symm
  rw [hq]
  field_simp
  ring

theorem remainder_fractions_sum_to_gap_witness :
    ∃ z, lagrangeInterpolationAtZero [(1, 2), (2, 5), (4, 17)] = some z ∧
      (((X ^ 2 + C 1 : Polynomial ℤ).eval 0 : ℤ) : ℚ) = (z : ℚ) +
        ∑ i in Finset.range [((1 : Int), (2 : Int)), (2, 5), (4, 17)].length,
        ((Int.tmod ((at_ [(1, 2), (2, 5), (4, 17)] i).2 * (numDen [(1, 2), (2, 5), (4, 17)] i).1)
            (numDen [(1, 2), (2, 5), (4, 17)] i).2 : ℤ) : ℚ)
          / (((numDen [(1, 2), (2, 5), (4, 17)] i).2 : ℤ) : ℚ) :=
  remainder_fractions_sum_to_gap (X ^ 2 + C 1) [(1, 2), (2, 5), (4, 17)]
    (by rw [natDegree_sq_add_one]; decide) (by decide) on_sq_add_one

/-- C3: for shares with pairwise distinct x-values the function returns the sum
over `i` of `tdiv (y_i * prod_{j ≠ i} (-x_j)) (prod_{j ≠ i} (x_i - x_j))`, one
truncating division per term on the fully accumulated products; on the empty
list it returns `0`. -/
theorem lagrange_eq_sum_of_truncated_quotients (shares : List Share)
    (hnd : (shares.map Prod.fst).Nodup) :
    lagrangeInterpolationAtZero shares = some
      (∑ i in Finset.range shares.length,
        Int.tdiv
          ((at_ shares i).2 * ∏ j in (Finset.range shares.length).erase i, -(at_ shares j).1)
          (∏ j in (Finset.range shares.length).erase i, ((at_ shares i).1 - (at_ shares j).1)))
    ∧ lagrangeInterpolationAtZero [] = some 0 :=
  ⟨lagrange_of_nodup shares hnd, rfl⟩

theorem lagrange_eq_sum_of_truncated_quotients_witness :
    lagrangeInterpolationAtZero [(1, 2), (2, 5), (4, 17)] = some
      (∑ i in Finset.range [((1 : Int), (2 : Int)), (2, 5), (4, 17)].length,
        Int.tdiv
          ((at_ [(1, 2), (2, 5), (4, 17)] i).2 *
            ∏ j in (Finset.range [((1 : Int), (2 : Int)), (2, 5), (4, 17)].length).erase i,
              -(at_ [(1, 2), (2, 5), (4, 17)] j).1)
          (∏ j in (Finset.range [((1 : Int), (2 : Int)), (2, 5), (4, 17)].length).erase i,
            ((at_ [(1, 2), (2, 5), (4, 17)] i).1 - (at_ [(1, 2), (2, 5), (4, 17)] j).1)))
    ∧ lagrangeInterpolationAtZero [] = some 0 :=
  lagrange_eq_sum_of_truncated_quotients [(1, 2), (2, 5), (4, 17)] (by decide)

/-- C4: some per-term denominator is `0` exactly when two shares at different
positions have the same x-value; the function fails (divides by zero) exactly
when some denominator is `0`; and on pairwise distinct x-values, whatever the
y-values, it returns an integer. -/
theorem division_by_zero_iff_duplicate_x (shares : List Share) :
    ((∃ i, i < shares.length ∧ (numDen shares i).2 = 0) ↔
      ∃ i j, i < shares.length ∧ j < shares.length ∧ i ≠ j ∧
        (at_ shares i).1 = (at_ shares j).1) ∧
    (lagrangeInterpolationAtZero shares = none ↔
      ∃ i, i < shares.length ∧ (numDen shares i).2 = 0) ∧
    ((shares.map Prod.fst).Nodup → ∃ z, lagrangeInterpolationAtZero shares = some z) := by
  have hden : (∃ i, i < shares.length ∧ (numDen shares i).2 = 0) ↔
      ¬ (shares.map Prod.fst).Nodup := by
    simp only [numDen_eq]; exact exists_den_zero_iff shares
  refine ⟨?_, ?_, fun h => ⟨_, lagrange_of_nodup shares h⟩⟩
  · rw [hden, nodup_iff_at]
    push_neg
    constructor
    · rintro ⟨i, j, hi, hj, hne, he⟩; exact ⟨i, j, hi, hj, hne, he⟩
    · rintro ⟨i, j, hi, hj, hne, he⟩; exact ⟨i, j, hi, hj, hne, he⟩
  · rw [hden]
    constructor
    · intro hnone hnd
      rw [lagrange_of_nodup shares hnd] at hnone
      exact Option.noConfusion hnone
    · exact lagrange_of_dup shares

theorem division_by_zero_iff_duplicate_x_witness :
    (∃ z, lagrangeInterpolationAtZero [(1, 7), (3, 7), (-2, 0)] = some z) ∧
    lagrangeInterpolationAtZero [(1, 7), (3, 8), (1, 0)] = none :=
  ⟨(division_by_zero_iff_duplicate_x [(1, 7), (3, 7), (-2, 0)]).2.2 (by decide),
   (division_by_zero_iff_duplicate_x [(1, 7), (3, 8), (1, 0)]).2.1.mpr ⟨0, by decide, by decide⟩⟩

/-- C5: after `generateCombinations(0,0)`, `combs` lists, for the position tuples
`i_1 < ... < i_k` below `n` taken in lexicographic order, the shares at those
positions in increasing position order; every such tuple occurs, exactly once,
and the tuples depend on `n` and `k` only, not on the shares. -/
theorem combinations_are_position_tuples_in_lex_order (shares : List Share) (k : Nat) :
    combinations shares (k : Int) =
      (positionTuples shares.length k).map (fun t => t.map (at_ shares)) ∧
    (∀ t, t ∈ positionTuples shares.length k ↔
      t.length = k ∧ t.Sorted (fun a b => a < b) ∧ ∀ i ∈ t, i < shares.length) ∧
    (positionTuples shares.length k).Sorted (List.Lex (fun a b => a < b)) ∧
    (positionTuples shares.length k).Nodup := by
  have hs : (positionTuples shares.length k).Sorted (List.Lex (fun a b => a < b)) := by
    rw [positionTuples, List.range_eq_range']
    exact sorted_selections_range' _ _ _
  refine ⟨combinations_eq_positions shares k, mem_positionTuples _ _, hs, ?_⟩
  exact hs.nodup

/-- C6: the number of subsets produced is the binomial coefficient `C(n, k)`;
`k = 0` yields exactly one subset, the empty one; `k > n` yields none.  The
enumeration is a total function: it terminates in every case. -/
theorem combinations_count_is_binomial (shares : List Share) (k : Nat) :
    (combinations shares (k : Int)).length = Nat.choose shares.length k ∧
    combinations shares 0 = [[]] ∧
    (shares.length < k → combinations shares (k : Int) = []) := by
  refine ⟨?_, ?_, fun h => ?_⟩
  · rw [combinations_eq_selections, length_selections]
  · simp [combinations, generateCombinations]
  · apply List.eq_nil_of_length_eq_zero
    rw [combinations_eq_selections, length_selections, Nat.choose_eq_zero_of_lt h]

theorem combinations_count_is_binomial_witness :
    (combinations [(1, 2), (2, 5), (4, 17), (5, 26)] (2 : Nat)).length = 6 ∧
    combinations [(1, 2), (2, 5)] (3 : Nat) = [] :=
  ⟨(combinations_count_is_binomial [(1, 2), (2, 5), (4, 17), (5, 26)] 2).1,
   (combinations_count_is_binomial [(1, 2), (2, 5)] 3).2.2 (by decide)⟩

theorem tallyOf_pair (a b : List Share) (x y t : Int)
    (ha : lagrangeInterpolationAtZero a = some x) (hb : lagrangeInterpolationAtZero b = some y) :
    tallyOf [a, b] t = (if x = t then 1 else 0) + (if y = t then 1 else 0) := by
  rw [tallyOf_cons, tallyOf_cons, ha, hb]
  simp [tallyOf]

theorem firstSupport_spec (combs : List (List Share)) (z : Int)
    (h : 0 < tallyOf combs z) :
    ∃ c, combs[firstSupport combs z]? = some c ∧ lagrangeInterpolationAtZero c = some z := by
  obtain ⟨c, hc, hcz⟩ := (tallyOf_pos_iff _ _).mp h
  have hlt : combs.findIdx (fun c => decide (lagrangeInterpolationAtZero c = some z))
      < combs.length :=
    List.findIdx_lt_length_of_exists ⟨c, hc, by simpa using hcz⟩
  have hp := List.findIdx_getElem (w := hlt)
  exact ⟨combs[combs.findIdx (fun c => decide (lagrangeInterpolationAtZero c = some z))],
    by simp [firstSupport, List.getElem?_eq_getElem hlt], by simpa using hp⟩

/-- C7: for shares with pairwise distinct x-values and a `k` with at least one
`k`-subset, the analysis returns a report whose `bestSecret` is the decimal string
of a value `z` that some subset interpolates to; no value has a larger tally than
`z`; and `maxFreq` is the number of subsets interpolating to `z`, which is also
the length of `sourceMap[bestSecret]`. -/
theorem best_secret_has_maximum_tally (throws : Bool) (shares : List Share) (k : Int)
    (hnd : (shares.map Prod.fst).Nodup) (hk : combinations shares k ≠ []) :
    ∃ r z, analyze throws shares k = some r ∧ r.bestSecret = get_str z ∧
      (∃ c ∈ combinations shares k, lagrangeInterpolationAtZero c = some z) ∧
      (∀ s, tallyOf (combinations shares k) s ≤ tallyOf (combinations shares k) z) ∧
      r.maxFreq = tallyOf (combinations shares k) z ∧
      (mapGet r.bestSecret [] r.maps.sourceMap).length = tallyOf (combinations shares k) z := by
  obtain ⟨c0, hc0⟩ := List.exists_mem_of_ne_nil _ hk
  have hz0 := lagrange_of_nodup c0 (mem_combinations_nodup shares k c0 hnd hc0)
  obtain ⟨r, z, hr, hb, hpos, hmax, hfreq, hsrc, _⟩ :=
    analyze_winner throws shares k (Or.inr hnd) ⟨c0, hc0, _, hz0⟩
  exact ⟨r, z, hr, hb, (tallyOf_pos_iff _ _).mp hpos, hmax, hfreq,
    by rw [hsrc, supporters_length_get_str]⟩

theorem best_secret_has_maximum_tally_witness :
    ∃ r z, analyze false [(1, 2), (2, 5), (3, 10), (4, 17), (5, 1)] 3 = some r ∧
      r.bestSecret = get_str z ∧
      (∃ c ∈ combinations [(1, 2), (2, 5), (3, 10), (4, 17), (5, 1)] 3,
        lagrangeInterpolationAtZero c = some z) ∧
      (∀ s, tallyOf (combinations [(1, 2), (2, 5), (3, 10), (4, 17), (5, 1)] 3) s ≤
        tallyOf (combinations [(1, 2), (2, 5), (3, 10), (4, 17), (5, 1)] 3) z) ∧
      r.maxFreq = tallyOf (combinations [(1, 2), (2, 5), (3, 10), (4, 17), (5, 1)] 3) z ∧
      (mapGet r.bestSecret [] r.maps.sourceMap).length =
        tallyOf (combinations [(1, 2), (2, 5), (3, 10), (4, 17), (5, 1)] 3) z :=
  best_secret_has_maximum_tally false [(1, 2), (2, 5), (3, 10), (4, 17), (5, 1)] 3
    (by decide) (by decide)

/-- C8 as stated fails: with shares `(1,9), (2,10)` and `k = 1` the two subsets
interpolate to `9` and then `10`, each with tally `1`, the highest; the first
supporting subset of `9` comes first in the enumeration, yet `bestSecret` is
`"10"` (whether or not a failed division would be caught). -/
theorem first_occurrence_does_not_decide_ties :
    combinations [(1, 9), (2, 10)] 1 = [[(1, 9)], [(2, 10)]] ∧
    lagrangeInterpolationAtZero [(1, 9)] = some 9 ∧
    lagrangeInterpolationAtZero [(2, 10)] = some 10 ∧
    tallyOf (combinations [(1, 9), (2, 10)] 1) 9 = 1 ∧
    tallyOf (combinations [(1, 9), (2, 10)] 1) 10 = 1 ∧
    firstSupport (combinations [(1, 9), (2, 10)] 1) 9 = 0 ∧
    firstSupport (combinations [(1, 9), (2, 10)] 1) 10 = 1 ∧
    (analyze false [(1, 9), (2, 10)] 1).map (fun r => (r.bestSecret, r.maxFreq))
      = some (get_str 10, 1) ∧
    (analyze true [(1, 9), (2, 10)] 1).map (fun r => (r.bestSecret, r.maxFreq))
      = some (get_str 10, 1) := by
  decide

/-- C10: for shares with pairwise distinct x-values and every `k`, the analysis
returns a report in which an index `x` is listed as invalid exactly when `x` is
the x-value of an input share and no subset whose interpolation gives
`bestSecret` contains a share with that `x`; the list is ascending, without
repetition. -/
theorem invalid_indices_are_inputs_outside_winning_subsets (throws : Bool)
    (shares : List Share) (k : Int) (hnd : (shares.map Prod.fst).Nodup) :
    ∃ r, analyze throws shares k = some r ∧
      (∀ x, x ∈ r.invalid ↔
        x ∈ shares.map Prod.fst ∧
        ¬ ∃ c ∈ combinations shares k,
          (∃ z, lagrangeInterpolationAtZero c = some z ∧ get_str z = r.bestSecret) ∧
          x ∈ c.map Prod.fst) ∧
      r.invalid.Sorted (fun a b => a < b) := by
  obtain ⟨r, hr, _, _, _, _, hinv⟩ := analyze_spec throws shares k (Or.inr hnd)
  refine ⟨r, hr, fun x => ?_, hinv ▸ invalidIndices_sorted _ _⟩
  rw [hinv, mem_invalidIndices]
  simp only [supporters, List.mem_filter, decide_eq_true_eq, keyOf, Option.map_eq_some',
    and_assoc]

theorem invalid_indices_are_inputs_outside_winning_subsets_witness :
    (∃ r, analyze false [(1, 2), (2, 5), (3, 10), (4, 17), (5, 1)] 3 = some r ∧
      (∀ x, x ∈ r.invalid ↔
        x ∈ [((1 : Int), (2 : Int)), (2, 5), (3, 10), (4, 17), (5, 1)].map Prod.fst ∧
        ¬ ∃ c ∈ combinations [(1, 2), (2, 5), (3, 10), (4, 17), (5, 1)] 3,
          (∃ z, lagrangeInterpolationAtZero c = some z ∧ get_str z = r.bestSecret) ∧
          x ∈ c.map Prod.fst) ∧
      r.invalid.Sorted (fun a b => a < b)) ∧
    (analyze false [(1, 2), (2, 5), (3, 10), (4, 17), (5, 1)] 3).map (fun r => r.invalid)
      = some [5] :=
  ⟨invalid_indices_are_inputs_outside_winning_subsets false
    [(1, 2), (2, 5), (3, 10), (4, 17), (5, 1)] 3 (by decide), by decide⟩

/-! ## Further facts about the analysis -/

theorem analyze_eq_some (throws : Bool) (shares : List Share) (k : Int) (r : Report)
    (h : analyze throws shares k = some r) :
    ∃ t, tally throws (combinations shares k) = some t ∧
      r = ⟨(selectBest t.freq).1, (selectBest t.freq).2, t,
        invalidIndices shares (mapGet (selectBest t.freq).1 [] t.sourceMap)⟩ := by
  unfold analyze at h
  cases ht : tally throws (combinations shares k) with
  | none => rw [ht] at h; exact Option.noConfusion h
  | some t =>
    rw [ht] at h
    exact ⟨t, rfl, (Option.some.inj h).symm⟩

theorem analyze_bestSecret_nil (throws : Bool) (shares : List Share) (k : Int) (r : Report)
    (h : analyze throws shares k = some r) (h0 : r.maxFreq = 0) : r.bestSecret = [] := by
  obtain ⟨t, _, rfl⟩ := analyze_eq_some throws shares k r h
  obtain ⟨b, hb⟩ : ∃ b, selectBest t.freq = b := ⟨_, rfl⟩
  have hspec := (selectBest_spec t.freq ([], 0)).2
  simp only [show List.foldl selectStep ([], 0) t.freq = b from hb] at hspec
  simp only [hb] at h0 ⊢
  rcases hspec with ⟨h1, _⟩ | ⟨_, _, _, _, h1⟩
  · rw [h1]
  · have h2 : (0 : Nat) < b.2 := h1
    omega

theorem length_of_mem_selections {α : Type} (k : Nat) (l t : List α)
    (h : t ∈ selections k l) : t.length = k := by
  induction l generalizing k t with
  | nil =>
    cases k with
    | zero => simp only [selections, List.mem_singleton] at h; subst h; rfl
    | succ k => simp [selections] at h
  | cons a l ih =>
    cases k with
    | zero => simp only [selections, List.mem_singleton] at h; subst h; rfl
    | succ k =>
      simp only [selections, List.mem_append, List.mem_map] at h
      rcases h with ⟨u, hu, rfl⟩ | h
      · simp [ih k u hu]
      · exact ih (k + 1) t h

theorem selections_of_length_lt {α : Type} (k : Nat) (l : List α) (h : l.length < k) :
    selections k l = [] := by
  apply List.eq_nil_of_length_eq_zero
  rw [length_selections, Nat.choose_eq_zero_of_lt h]

theorem selections_length_self {α : Type} (l : List α) : selections l.length l = [l] := by
  induction l with
  | nil => rfl
  | cons a l ih =>
    simp only [List.length_cons, selections, ih, List.map_cons, List.map_nil]
    rw [selections_of_length_lt (l.length + 1) l (Nat.lt_succ_self _)]
    rfl

theorem combinations_of_length_lt (shares : List Share) (k : Int)
    (hk : (shares.length : Int) < k) : combinations shares k = [] := by
  obtain ⟨n, rfl⟩ := Int.eq_ofNat_of_zero_le (by omega : 0 ≤ k)
  rw [combinations_eq_selections]
  exact selections_of_length_lt n shares (by omega)

theorem validIndices_sorted (w : List (List Share)) :
    (validIndices w).Sorted (fun a b => a < b) := by
  have h : ∀ (acc : List Int), acc.Sorted (fun a b => a < b) →
      (w.foldl (fun acc comb => comb.foldl (fun a s => setInsert s.1 a) acc) acc).Sorted
        (fun a b => a < b) := by
    induction w with
    | nil => intro acc h; exact h
    | cons c w ih => intro acc h; exact ih _ (foldl_setInsert_sorted c acc h)
  exact h [] List.sorted_nil

theorem allIndices_sorted (shares : List Share) :
    (allIndices shares).Sorted (fun a b => a < b) :=
  foldl_setInsert_sorted shares [] List.sorted_nil

theorem invalidIndices_nil (shares : List Share) : invalidIndices shares [] = allIndices shares := by
  simp [invalidIndices, validIndices]

/-! ## Exact divisions and the interpolating polynomial -/

theorem injOn_nodes (shares : List Share) (hnd : (shares.map Prod.fst).Nodup) :
    Set.InjOn (fun j => ((at_ shares j).1 : ℚ)) (Finset.range shares.length : Finset Nat) := by
  intro a ha b hb hab
  by_contra hne
  have ha' : a < shares.length := by simpa using ha
  have hb' : b < shares.length := by simpa using hb
  exact (nodup_iff_at shares).mp hnd a b ha' hb' hne (by simpa using hab)

theorem eval_zero_interpolate (shares : List Share) (r : Nat → ℚ) :
    (Lagrange.interpolate (Finset.range shares.length)
        (fun j => ((at_ shares j).1 : ℚ)) r).eval 0 =
      ∑ i in Finset.range shares.length,
        r i * ((specNum shares i : ℚ) / (specDen shares i : ℚ)) := by
  rw [Lagrange.interpolate_apply, Polynomial.eval_finset_sum]
  apply Finset.sum_congr rfl
  intro i _
  rw [Polynomial.eval_mul, Polynomial.eval_C, eval_zero_basis]

theorem specDen_ne_zero (shares : List Share) (hnd : (shares.map Prod.fst).Nodup) (i : Nat)
    (hi : i < shares.length) : specDen shares i ≠ 0 :=
  fun hz => (exists_den_zero_iff shares).mp ⟨i, hi, hz⟩ hnd

theorem exact_specSum_cast (shares : List Share) (hnd : (shares.map Prod.fst).Nodup)
    (hex : ∀ i, i < shares.length →
      (numDen shares i).2 ∣ (at_ shares i).2 * (numDen shares i).1) :
    ((specSum shares : ℤ) : ℚ) =
      ∑ i in Finset.range shares.length,
        (((at_ shares i).2 : ℤ) : ℚ) * ((specNum shares i : ℚ) / (specDen shares i : ℚ)) := by
  rw [specSum, Int.cast_sum]
  apply Finset.sum_congr rfl
  intro i hi
  have hi' : i < shares.length := by simpa using hi
  have hd := specDen_ne_zero shares hnd i hi'
  have hdq : (specDen shares i : ℚ) ≠ 0 := by exact_mod_cast hd
  have hdvd := hex i hi'
  simp only [numDen_eq] at hdvd
  have h1 : Int.tdiv ((at_ shares i).2 * specNum shares i) (specDen shares i) * specDen shares i
      = (at_ shares i).2 * specNum shares i := Int.tdiv_mul_cancel hdvd
  have h2 : ((Int.tdiv ((at_ shares i).2 * specNum shares i) (specDen shares i) : ℤ) : ℚ)
      * (specDen shares i : ℚ) = (((at_ shares i).2 : ℤ) : ℚ) * (specNum shares i : ℚ) := by
    exact_mod_cast h1
  field_simp
  exact h2

theorem at_mem (shares : List Share) (i : Nat) (hi : i < shares.length) :
    at_ shares i ∈ shares := by
  simp only [at_, List.getD_eq_getElem _ _ hi]
  exact List.getElem_mem hi

theorem exists_at_of_mem (shares : List Share) (s : Share) (hs : s ∈ shares) :
    ∃ i, i < shares.length ∧ at_ shares i = s := by
  obtain ⟨i, hi, he⟩ := List.getElem_of_mem hs
  exact ⟨i, hi, by simp [at_, List.getElem?_eq_getElem hi, he]⟩

theorem exact_on_polynomial (f : Polynomial ℤ) (shares : List Share)
    (hdeg : f.natDegree < shares.length) (hnd : (shares.map Prod.fst).Nodup)
    (hon : ∀ s ∈ shares, s.2 = f.eval s.1)
    (hex : ∀ i, i < shares.length →
      (numDen shares i).2 ∣ (at_ shares i).2 * (numDen shares i).1) :
    specSum shares = f.eval 0 := by
  have h1 := rational_sum_eq_eval_zero f shares hdeg hnd hon
  have h2 := exact_specSum_cast shares hnd hex
  have h3 : ((specSum shares : ℤ) : ℚ) = ((f.eval 0 : ℤ) : ℚ) := by
    rw [h2, ← h1]
    apply Finset.sum_congr rfl
    intro i _
    push_cast
    ring
  exact_mod_cast h3

/-! ## Consecutive indices -/

theorem length_consecutiveShares (y : Nat → Int) (k : Nat) :
    (consecutiveShares y k).length = k := by
  simp [consecutiveShares]

theorem at_consecutiveShares (y : Nat → Int) (k i : Nat) (hi : i < k) :
    at_ (consecutiveShares y k) i = (((i + 1 : Nat) : Int), y (i + 1)) := by
  simp [at_, consecutiveShares, List.getD_eq_getElem?_getD, List.getElem?_map,
    List.getElem?_range hi]

theorem nodup_consecutiveShares (y : Nat → Int) (k : Nat) :
    ((consecutiveShares y k).map Prod.fst).Nodup := by
  rw [nodup_iff_at]
  intro i j hi hj hij
  rw [length_consecutiveShares] at hi hj
  rw [at_consecutiveShares y k i hi, at_consecutiveShares y k j hj]
  simp only [ne_eq, Nat.cast_inj]
  omega

theorem prod_den_consecutive (i : Nat) :
    ∀ d : Nat, ∏ j in (Finset.range (i + 1 + d)).erase i, ((i : ℤ) - (j : ℤ)) =
      (-1) ^ d * (i.factorial : ℤ) * (d.factorial : ℤ) := by
  intro d
  induction d with
  | zero =>
    have h1 : (Finset.range (i + 1 + 0)).erase i = Finset.range i := by
      rw [Nat.add_zero, Finset.range_succ, Finset.erase_insert Finset.not_mem_range_self]
    rw [h1, ← Finset.prod_range_reflect]
    have h2 : ∀ j ∈ Finset.range i, ((i : ℤ) - ((i - 1 - j : Nat) : ℤ)) = ((j + 1 : Nat) : ℤ) := by
      intro j hj
      have : j < i := Finset.mem_range.mp hj
      omega
    rw [Finset.prod_congr rfl h2, ← Nat.cast_prod, Finset.prod_range_add_one_eq_factorial]
    simp
  | succ d ih =>
    have h1 : (Finset.range (i + 1 + (d + 1))).erase i =
        insert (i + 1 + d) ((Finset.range (i + 1 + d)).erase i) := by
      rw [← Nat.add_assoc, Finset.range_succ, Finset.erase_insert_of_ne (by omega)]
    have h2 : i + 1 + d ∉ (Finset.range (i + 1 + d)).erase i := by
      simp
    rw [h1, Finset.prod_insert h2, ih, Nat.factorial_succ]
    push_cast
    ring

theorem prod_num_consecutive (i k : Nat) (hi : i < k) :
    (-(((i + 1 : Nat) : ℤ))) * ∏ j in (Finset.range k).erase i, (-(((j + 1 : Nat) : ℤ))) =
      (-1) ^ k * (k.factorial : ℤ) := by
  rw [Finset.mul_prod_erase (Finset.range k) (fun j => (-(((j + 1 : Nat) : ℤ))))
    (Finset.mem_range.mpr hi)]
  have : ∀ j ∈ Finset.range k, (-(((j + 1 : Nat) : ℤ))) = (-1) * ((j + 1 : Nat) : ℤ) := by
    intro j _; ring
  rw [Finset.prod_congr rfl this, Finset.prod_mul_distrib, Finset.prod_const, Finset.card_range,
    ← Nat.cast_prod, Finset.prod_range_add_one_eq_factorial]

theorem specNum_consecutive (y : Nat → Int) (k i : Nat) :
    specNum (consecutiveShares y k) i =
      ∏ j in (Finset.range k).erase i, (-(((j + 1 : Nat) : ℤ))) := by
  rw [specNum, length_consecutiveShares]
  apply Finset.prod_congr rfl
  intro j hj
  rw [at_consecutiveShares y k j (Finset.mem_range.mp (Finset.mem_of_mem_erase hj))]

theorem specDen_consecutive (y : Nat → Int) (k i : Nat) (hi : i < k) :
    specDen (consecutiveShares y k) i =
      ∏ j in (Finset.range k).erase i, ((i : ℤ) - (j : ℤ)) := by
  rw [specDen, length_consecutiveShares]
  apply Finset.prod_congr rfl
  intro j hj
  rw [at_consecutiveShares y k j (Finset.mem_range.mp (Finset.mem_of_mem_erase hj)),
    at_consecutiveShares y k i hi]
  push_cast
  ring

theorem specNum_eq_specDen_mul (y : Nat → Int) (k i : Nat) (hi : i < k) :
    specNum (consecutiveShares y k) i =
      specDen (consecutiveShares y k) i * ((-1) ^ i * (Nat.choose k (i + 1) : ℤ)) := by
  obtain ⟨d, rfl⟩ : ∃ d, k = i + 1 + d := ⟨k - (i + 1), by omega⟩
  have hne : (-(((i + 1 : Nat) : ℤ))) ≠ 0 := by
    simp only [ne_eq, neg_eq_zero, Nat.cast_eq_zero]; omega
  apply mul_left_cancel₀ hne
  rw [specNum_consecutive y _ i, specDen_consecutive y _ i hi, prod_num_consecutive i _ hi,
    prod_den_consecutive i d]
  have hch : (Nat.choose (i + 1 + d) (i + 1) : ℤ) * ((i + 1).factorial : ℤ) * (d.factorial : ℤ)
      = ((i + 1 + d).factorial : ℤ) := by
    have := Nat.choose_mul_factorial_mul_factorial (show i + 1 ≤ i + 1 + d by omega)
    rw [Nat.add_sub_cancel_left] at this
    exact_mod_cast this
  rw [← hch, Nat.factorial_succ]
  push_cast
  rw [pow_add, pow_add]
  ring

theorem term_consecutive (y : Nat → Int) (k i : Nat) (hi : i < k) :
    specDen (consecutiveShares y k) i ∣
        (at_ (consecutiveShares y k) i).2 * specNum (consecutiveShares y k) i ∧
      Int.tdiv ((at_ (consecutiveShares y k) i).2 * specNum (consecutiveShares y k) i)
          (specDen (consecutiveShares y k) i) =
        (-1) ^ i * (Nat.choose k (i + 1) : ℤ) * y (i + 1) := by
  have hd : specDen (consecutiveShares y k) i ≠ 0 :=
    specDen_ne_zero _ (nodup_consecutiveShares y k) i (by rw [length_consecutiveShares]; exact hi)
  have he : (at_ (consecutiveShares y k) i).2 * specNum (consecutiveShares y k) i =
      specDen (consecutiveShares y k) i * ((-1) ^ i * (Nat.choose k (i + 1) : ℤ) * y (i + 1)) := by
    rw [specNum_eq_specDen_mul y k i hi, at_consecutiveShares y k i hi]
    ring
  rw [he]
  exact ⟨Dvd.intro _ rfl, Int.mul_tdiv_cancel_left _ hd⟩

/-! ## `decodeBase` -/

theorem digitValue_some_range (b : Int) (c : Char) (d : Nat) (h : digitValue b c = some d) :
    (48 ≤ c.toNat ∧ c.toNat ≤ 57) ∨ (65 ≤ c.toNat ∧ c.toNat ≤ 90) ∨
      (97 ≤ c.toNat ∧ c.toNat ≤ 122) := by
  unfold digitValue at h
  by_cases h1 : 48 ≤ c.toNat ∧ c.toNat ≤ 57
  · exact Or.inl h1
  · by_cases h2 : 65 ≤ c.toNat ∧ c.toNat ≤ 90
    · exact Or.inr (Or.inl h2)
    · by_cases h3 : 97 ≤ c.toNat ∧ c.toNat ≤ 122
      · exact Or.inr (Or.inr h3)
      · simp [h1, h2, h3] at h

theorem validDigit_iff (b : Int) (c : Char) :
    validDigit b c = true ↔ ∃ d, digitValue b c = some d ∧ (d : Int) < b := by
  unfold validDigit
  cases h : digitValue b c with
  | none => simp
  | some d => simp

theorem validDigit_not_space (b : Int) (c : Char) (h : validDigit b c = true) :
    isspace c = false := by
  obtain ⟨d, hd, _⟩ := (validDigit_iff b c).mp h
  have := digitValue_some_range b c d hd
  simp only [isspace, Bool.or_eq_false_iff, decide_eq_false_iff_not, Bool.and_eq_false_iff]
  omega

theorem validDigit_ne_minus (b : Int) (c : Char) (h : validDigit b c = true) : c ≠ '-' := by
  obtain ⟨d, hd, _⟩ := (validDigit_iff b c).mp h
  have := digitValue_some_range b c d hd
  intro hc
  subst hc
  revert this
  decide

theorem validDigit_ne_nul (b : Int) (c : Char) (h : validDigit b c = true) : c.toNat ≠ 0 := by
  obtain ⟨d, hd, _⟩ := (validDigit_iff b c).mp h
  have := digitValue_some_range b c d hd
  omega

theorem digitValue_zero (b : Int) (c : Char) (h : c.toNat = 48) : digitValue b c = some 0 := by
  simp [digitValue, h]

theorem positional_append (b : Int) (ds : List Nat) (d : Nat) :
    positional b (ds ++ [d]) = positional b ds * b + (d : Int) := by
  simp [positional, List.foldl_append]

theorem positional_eq_sum (b : Int) (ds : List Nat) :
    positional b ds =
      ∑ i in Finset.range ds.length, ((ds.getD i 0 : Nat) : Int) * b ^ (ds.length - 1 - i) := by
  induction ds using List.reverseRecOn with
  | nil => simp [positional]
  | append_singleton ds d ih =>
    rw [positional_append, ih, List.length_append, List.length_singleton, Finset.sum_range_succ,
      Finset.sum_mul]
    congr 1
    · apply Finset.sum_congr rfl
      intro i hi
      have hi' : i < ds.length := Finset.mem_range.mp hi
      rw [List.getD_append _ _ _ _ hi', mul_assoc, ← pow_succ]
      congr 2
      omega
    · simp [List.getD_eq_getElem?_getD]

theorem positional_zeros_append (b : Int) (zs ds : List Nat) (hz : ∀ z ∈ zs, z = 0) :
    positional b (zs ++ ds) = positional b ds := by
  induction zs with
  | nil => rfl
  | cons z zs ih =>
    have hz0 : z = 0 := hz z (List.mem_cons_self _ _)
    have ih' := ih (fun z' hz' => hz z' (List.mem_cons_of_mem _ hz'))
    simp only [positional, List.cons_append, List.foldl_cons, hz0] at ih' ⊢
    simpa using ih'

theorem positional_zeros (b : Int) (zs : List Nat) (hz : ∀ z ∈ zs, z = 0) :
    positional b zs = 0 := by
  have := positional_zeros_append b zs [] hz
  simpa [positional] using this

theorem dropWhile_eq_self_of_head {α : Type} (p : α → Bool) (a : α) (l : List α)
    (h : p a = false) : (a :: l).dropWhile p = a :: l := by
  simp [List.dropWhile, h]

theorem mem_dropWhile_of_not {α : Type} (p : α → Bool) (l : List α) (c : α)
    (hc : c ∈ l) (hp : p c = false) : c ∈ l.dropWhile p := by
  induction l with
  | nil => simp at hc
  | cons a l ih =>
    by_cases ha : p a = true
    · rw [List.dropWhile_cons_of_pos ha]
      rcases List.mem_cons.mp hc with rfl | hc'
      · rw [ha] at hp; exact Bool.noConfusion hp
      · exact ih hc'
    · rw [List.dropWhile_cons_of_neg ha]
      exact hc

theorem c_str_of_valid (b : Int) (str : Str) (h : ∀ c ∈ str, validDigit b c = true) :
    c_str str = str := by
  unfold c_str
  rw [List.takeWhile_eq_self_iff]
  intro c hc
  simpa using validDigit_ne_nul b c (h c hc)

theorem zeroOrSpace_valid (b : Int) (c : Char) (hv : validDigit b c = true)
    (hz : (decide (c.toNat = 48) || isspace c) = true) :
    (digitValue b c).getD 0 = 0 := by
  rw [validDigit_not_space b c hv, Bool.or_false, decide_eq_true_eq] at hz
  rw [digitValue_zero b c hz]
  rfl

theorem convertDigits_valid (x b : Int) (s : Str) (h : ∀ c ∈ s, validDigit b c = true) :
    convertDigits x b b false s =
      (positional b (s.map (fun c => (digitValue b c).getD 0)), 0) := by
  have hsplit := List.takeWhile_append_dropWhile
    (fun c : Char => decide (c.toNat = 48) || isspace c) s
  have hzeros : ∀ z ∈ (s.takeWhile
      (fun c : Char => decide (c.toNat = 48) || isspace c)).map
      (fun c => (digitValue b c).getD 0), z = 0 := by
    intro z hz
    obtain ⟨c, hc, rfl⟩ := List.mem_map.mp hz
    have hp := @List.mem_takeWhile_imp Char
      (fun c : Char => decide (c.toNat = 48) || isspace c) s c hc
    exact zeroOrSpace_valid b c (h c ((List.takeWhile_sublist _).subset hc)) hp
  have hval : positional b (s.map (fun c => (digitValue b c).getD 0)) =
      positional b ((s.dropWhile
        (fun c : Char => decide (c.toNat = 48) || isspace c)).map
        (fun c => (digitValue b c).getD 0)) := by
    conv_lhs => rw [← hsplit]
    rw [List.map_append, positional_zeros_append b _ _ hzeros]
  rw [hval]
  unfold convertDigits
  generalize hs3 : s.dropWhile (fun c : Char => decide (c.toNat = 48) || isspace c) = s3
  have hs3sub : ∀ c ∈ s3, validDigit b c = true := by
    intro c hc
    rw [← hs3] at hc
    exact h c ((List.dropWhile_sublist _).subset hc)
  cases s3 with
  | nil => simp [positional]
  | cons e s3 =>
    have hfilter : (e :: s3).filter (fun c => !isspace c) = e :: s3 := by
      rw [List.filter_eq_self]
      intro c hc
      simp [validDigit_not_space b c (hs3sub c hc)]
    have hall : (((e :: s3).map (digitValue b)).all (fun d =>
        match d with
        | some v => decide ((v : Int) < b)
        | none => false)) = true := by
      rw [List.all_eq_true]
      intro o ho
      obtain ⟨c, hc, rfl⟩ := List.mem_map.mp ho
      exact hs3sub c hc
    simp only [List.isEmpty_cons, Bool.false_eq_true, if_false, hfilter, hall, if_true,
      List.map_map]
    rfl

theorem mpz_set_str_valid (x : Int) (b : Int) (str : Str) (hb2 : 2 ≤ b) (hb62 : b ≤ 62)
    (hne : str ≠ []) (h : ∀ c ∈ str, validDigit b c = true) :
    mpz_set_str x str b = (positional b (str.map (fun c => (digitValue b c).getD 0)), 0) := by
  obtain ⟨a, l, rfl⟩ := List.exists_cons_of_ne_nil hne
  have ha := h a (List.mem_cons_self _ _)
  obtain ⟨d, hd, hdb⟩ := (validDigit_iff b a).mp ha
  have hb0 : ¬ b = 0 := by omega
  have hb62' : ¬ b > 62 := by omega
  have hs1 : (a :: l).dropWhile isspace = a :: l :=
    dropWhile_eq_self_of_head _ _ _ (validDigit_not_space b a ha)
  have hneg : decide (((a :: l) : Str).head? = some '-') = false := by
    simp only [List.head?_cons, Option.some.injEq, decide_eq_false_iff_not]
    exact validDigit_ne_minus b a ha
  have hfirst : firstDigitOk b (a :: l) = true := by
    simp [firstDigitOk, hd, hb0, hdb]
  unfold mpz_set_str
  rw [if_neg hb62']
  simp only [hs1]
  simp only [hneg, Bool.false_eq_true, if_false, hfirst, if_true, hb0]
  exact convertDigits_valid x b (a :: l) h

theorem decodeBase_valid (b : Int) (str : Str) (hb2 : 2 ≤ b) (hb62 : b ≤ 62)
    (hne : str ≠ []) (h : ∀ c ∈ str, validDigit b c = true) :
    decodeBase str b = positional b (str.map (fun c => (digitValue b c).getD 0)) := by
  rw [decodeBase, c_str_of_valid b str h, mpz_set_str_valid 0 b str hb2 hb62 hne h]

theorem convertDigits_invalid (x table base : Int) (negative : Bool) (s : Str) (c : Char)
    (hc : c ∈ s) (hsp : isspace c = false) (hz : c.toNat ≠ 48)
    (hbad : (match digitValue table c with
      | some v => decide ((v : Int) < base)
      | none => false) = false) :
    convertDigits x table base negative s = (x, -1) := by
  have hp : (fun c : Char => decide (c.toNat = 48) || isspace c) c = false := by
    simp [hsp, hz]
  have hc3 := mem_dropWhile_of_not
    (fun c : Char => decide (c.toNat = 48) || isspace c) s c hc hp
  unfold convertDigits
  generalize s.dropWhile (fun c : Char => decide (c.toNat = 48) || isspace c) = s3 at hc3
  cases s3 with
  | nil => simp at hc3
  | cons e s3 =>
    have hall : (((List.filter (fun c => !isspace c) (e :: s3)).map (digitValue table)).all
        (fun d =>
          match d with
          | some v => decide ((v : Int) < base)
          | none => false)) = false := by
      rw [Bool.eq_false_iff]
      intro hall
      rw [List.all_eq_true] at hall
      have := hall (digitValue table c) (List.mem_map_of_mem _
        (List.mem_filter.mpr ⟨hc3, by simp [hsp]⟩))
      rw [hbad] at this
      exact Bool.noConfusion this
    simp only [List.isEmpty_cons, Bool.false_eq_true, if_false, hall]

theorem mpz_set_str_invalid (x b : Int) (str : Str) (hb2 : 2 ≤ b) (c : Char)
    (hc : c ∈ str) (hbad : validDigit b c = false) (hsp : isspace c = false)
    (hm : c ≠ '-') : mpz_set_str x str b = (x, -1) := by
  unfold mpz_set_str
  by_cases hb62 : b > 62
  · rw [if_pos hb62]
  · rw [if_neg hb62]
    have hb0 : ¬ b = 0 := by omega
    have hc1 := mem_dropWhile_of_not isspace str c hc hsp
    generalize str.dropWhile isspace = s1 at hc1
    have hc2 : c ∈ (if decide (s1.head? = some '-') = true then s1.tail else s1) := by
      split
      · cases s1 with
        | nil => simp at hc1
        | cons a t =>
          rename_i hh
          simp only [List.head?_cons, Option.some.injEq, decide_eq_true_eq] at hh
          rcases List.mem_cons.mp hc1 with rfl | ht
          · exact absurd hh hm
          · exact ht
      · exact hc1
    simp only []
    generalize (if decide (s1.head? = some '-') = true then s1.tail else s1) = s2 at hc2
    by_cases hf : firstDigitOk b s2 = true
    · rw [if_pos hf]
      simp only [hb0, if_false]
      apply convertDigits_invalid x b b _ s2 c hc2 hsp
      · intro h48
        have : validDigit b c = true := by
          rw [validDigit, digitValue_zero b c h48]
          simp; omega
        rw [hbad] at this
        exact Bool.noConfusion this
      · exact hbad
    · rw [if_neg hf]

theorem firstDigitOk_neg_base (b : Int) (hb : b < 0) (s : Str) : firstDigitOk b s = false := by
  unfold firstDigitOk
  have hb0 : ¬ b = 0 := by omega
  split
  · split
    · rw [if_neg hb0]
      exact decide_eq_false (by omega)
    · rfl
  · rfl

theorem convertDigits_base_one (table : Int) (negative : Bool) (s : Str) :
    (convertDigits 0 table 1 negative s).1 = 0 := by
  unfold convertDigits
  simp only []
  split
  · rfl
  · split
    · rename_i hall
      rw [List.all_eq_true] at hall
      have hz : positional 1 (((List.filter (fun c => !isspace c) (List.dropWhile
          (fun c : Char => decide (c.toNat = 48) || isspace c) s)).map (digitValue table)).map
          (fun d => d.getD 0)) = 0 := by
        apply positional_zeros
        intro z hz
        obtain ⟨o, ho, rfl⟩ := List.mem_map.mp hz
        have := hall o ho
        cases o with
        | none => rfl
        | some v =>
          simp only [decide_eq_true_eq] at this
          simp only [Option.getD_some]
          omega
      rw [hz]
      split <;> rfl
    · rfl

theorem decodeBase_bad_base (str : Str) (b : Int) (hb : b < 0 ∨ b = 1 ∨ 62 < b) :
    decodeBase str b = 0 := by
  unfold decodeBase mpz_set_str
  rcases hb with hb | hb | hb
  · have h62 : ¬ b > 62 := by omega
    rw [if_neg h62]
    simp only [firstDigitOk_neg_base b hb, Bool.false_eq_true, if_false]
  · subst hb
    simp only [show ¬ ((1 : Int) > 62) by decide, if_false, show ¬ ((1 : Int) = 0) by decide]
    generalize (if decide ((List.dropWhile isspace (c_str str)).head? = some '-') = true
      then (List.dropWhile isspace (c_str str)).tail
      else List.dropWhile isspace (c_str str)) = s2
    by_cases hf : firstDigitOk 1 s2 = true
    · rw [if_pos hf]
      exact convertDigits_base_one _ _ _
    · rw [if_neg hf]
  · rw [if_pos hb]

/-! ## Independence of the input order -/

theorem prod_range_eq_list (h : Nat → Int) (n : Nat) :
    ∏ j in Finset.range n, h j = ((List.range n).map h).prod := by
  induction n with
  | zero => simp
  | succ n ih =>
    rw [Finset.prod_range_succ, List.range_succ, List.map_append, List.prod_append, ih]
    simp

theorem sum_range_eq_list (h : Nat → Int) (n : Nat) :
    ∑ j in Finset.range n, h j = ((List.range n).map h).sum := by
  induction n with
  | zero => simp
  | succ n ih =>
    rw [Finset.sum_range_succ, List.range_succ, List.map_append, List.sum_append, ih]
    simp

theorem prod_range_at (l : List Share) (g : Share → Int) :
    ∏ j in Finset.range l.length, g (at_ l j) = (l.map g).prod := by
  rw [prod_range_eq_list]
  conv_rhs => rw [← map_at_range l]
  rw [List.map_map]
  rfl

theorem sum_range_at (l : List Share) (g : Share → Int) :
    ∑ j in Finset.range l.length, g (at_ l j) = (l.map g).sum := by
  rw [sum_range_eq_list]
  conv_rhs => rw [← map_at_range l]
  rw [List.map_map]
  rfl

theorem at_eq_iff (l : List Share) (hnd : (l.map Prod.fst).Nodup) (i j : Nat)
    (hi : i < l.length) (hj : j < l.length) : at_ l j = at_ l i ↔ i = j := by
  constructor
  · intro h
    by_contra hne
    exact (nodup_iff_at l).mp hnd i j hi hj hne (by rw [h])
  · rintro rfl; rfl

theorem specNum_eq_list (l : List Share) (hnd : (l.map Prod.fst).Nodup) (i : Nat)
    (hi : i < l.length) :
    specNum l i = (l.map (fun t => if t = at_ l i then 1 else -t.1)).prod := by
  rw [specNum, prod_erase_eq_ite, ← prod_range_at]
  apply Finset.prod_congr rfl
  intro j hj
  have hj' : j < l.length := Finset.mem_range.mp hj
  by_cases h : i = j
  · simp [h]
  · simp [h, (at_eq_iff l hnd i j hi hj').not.mpr h]

theorem specDen_eq_list (l : List Share) (hnd : (l.map Prod.fst).Nodup) (i : Nat)
    (hi : i < l.length) :
    specDen l i = (l.map (fun t => if t = at_ l i then 1 else (at_ l i).1 - t.1)).prod := by
  rw [specDen, prod_erase_eq_ite, ← prod_range_at]
  apply Finset.prod_congr rfl
  intro j hj
  have hj' : j < l.length := Finset.mem_range.mp hj
  by_cases h : i = j
  · simp [h]
  · simp [h, (at_eq_iff l hnd i j hi hj').not.mpr h]

theorem specSum_eq_list (l : List Share) (hnd : (l.map Prod.fst).Nodup) :
    specSum l = (l.map (fun s =>
      Int.tdiv (s.2 * (l.map (fun t => if t = s then 1 else -t.1)).prod)
        ((l.map (fun t => if t = s then 1 else s.1 - t.1)).prod))).sum := by
  rw [specSum, ← sum_range_at]
  apply Finset.sum_congr rfl
  intro i hi
  have hi' : i < l.length := Finset.mem_range.mp hi
  rw [specNum_eq_list l hnd i hi', specDen_eq_list l hnd i hi']

theorem specSum_perm (l l' : List Share) (hp : l.Perm l') (hnd : (l.map Prod.fst).Nodup) :
    specSum l = specSum l' := by
  have hnd' : (l'.map Prod.fst).Nodup := (hp.map Prod.fst).nodup_iff.mp hnd
  rw [specSum_eq_list l hnd, specSum_eq_list l' hnd']
  have hf : (fun s : Share =>
      Int.tdiv (s.2 * (l.map (fun t => if t = s then 1 else -t.1)).prod)
        ((l.map (fun t => if t = s then 1 else s.1 - t.1)).prod)) =
      (fun s : Share =>
      Int.tdiv (s.2 * (l'.map (fun t => if t = s then 1 else -t.1)).prod)
        ((l'.map (fun t => if t = s then 1 else s.1 - t.1)).prod)) := by
    funext s
    rw [(hp.map (fun t => if t = s then 1 else -t.1)).prod_eq,
      (hp.map (fun t => if t = s then 1 else s.1 - t.1)).prod_eq]
  rw [hf]
  exact (hp.map _).sum_eq

theorem lagrange_perm (l l' : List Share) (hp : l.Perm l') :
    lagrangeInterpolationAtZero l = lagrangeInterpolationAtZero l' := by
  by_cases hnd : (l.map Prod.fst).Nodup
  · have hnd' : (l'.map Prod.fst).Nodup := (hp.map Prod.fst).nodup_iff.mp hnd
    rw [lagrange_of_nodup l hnd, lagrange_of_nodup l' hnd', specSum_perm l l' hp hnd]
  · have hnd' : ¬ (l'.map Prod.fst).Nodup := fun h => hnd ((hp.map Prod.fst).nodup_iff.mpr h)
    rw [lagrange_of_dup l hnd, lagrange_of_dup l' hnd']

theorem selections_perm_sublistsLen {α : Type} (k : Nat) (l : List α) :
    (selections k l).Perm (List.sublistsLen k l) := by
  induction l generalizing k with
  | nil => cases k <;> simp [selections]
  | cons a l ih =>
    cases k with
    | zero => simp [selections]
    | succ k =>
      rw [selections, List.sublistsLen_succ_cons]
      exact List.perm_append_comm.trans ((ih (k + 1)).append ((ih k).map _))

theorem selections_perm_coe (k : Nat) (l l' : List Share) (hp : l.Perm l') :
    ((selections k l).map Multiset.ofList).Perm
      ((selections k l').map Multiset.ofList) := by
  have h1 := (selections_perm_sublistsLen k l).map Multiset.ofList
  have h2 := (selections_perm_sublistsLen k l').map Multiset.ofList
  have h3 : (Multiset.powersetCardAux k l).Perm (Multiset.powersetCardAux k l') :=
    Multiset.powersetCardAux_perm hp
  rw [Multiset.powersetCardAux_eq_map_coe, Multiset.powersetCardAux_eq_map_coe] at h3
  exact h1.trans (h3.trans h2.symm)

theorem combinations_perm_coe (k : Int) (l l' : List Share) (hp : l.Perm l') :
    ((combinations l k).map Multiset.ofList).Perm
      ((combinations l' k).map Multiset.ofList) := by
  by_cases hk : k < 0
  · rw [combinations_of_neg l k hk, combinations_of_neg l' k hk]
  · obtain ⟨n, rfl⟩ := Int.eq_ofNat_of_zero_le (by omega : 0 ≤ k)
    rw [combinations_eq_selections, combinations_eq_selections]
    exact selections_perm_coe n l l' hp

theorem map_perm_of_coe_perm {β : Type} (F : List Share → β)
    (hF : ∀ a b : List Share, a.Perm b → F a = F b) (L L' : List (List Share))
    (h : (L.map Multiset.ofList).Perm (L'.map Multiset.ofList)) :
    (L.map F).Perm (L'.map F) := by
  have e : ∀ M : List (List Share), M.map F =
      (M.map Multiset.ofList).map (fun m => Quot.liftOn m F hF) := by
    intro M
    rw [List.map_map]
    rfl
  rw [e L, e L']
  exact h.map _

theorem keyOf_perm (a b : List Share) (h : a.Perm b) : keyOf a = keyOf b := by
  rw [keyOf, keyOf, lagrange_perm a b h]

theorem supporters_length_eq_countP (L : List (List Share)) (s : Str) :
    (supporters L s).length = (L.map keyOf).countP (fun o => decide (o = some s)) := by
  rw [supporters, List.countP_map, List.countP_eq_length_filter]
  rfl

theorem supporters_length_perm (L L' : List (List Share)) (s : Str)
    (h : (L.map Multiset.ofList).Perm (L'.map Multiset.ofList)) :
    (supporters L s).length = (supporters L' s).length := by
  rw [supporters_length_eq_countP, supporters_length_eq_countP]
  exact (map_perm_of_coe_perm keyOf keyOf_perm L L' h).countP_eq _

theorem exists_supporter_perm (L L' : List (List Share)) (s : Str) (x : Int)
    (h : (L.map Multiset.ofList).Perm (L'.map Multiset.ofList))
    (hx : ∃ c ∈ supporters L s, x ∈ c.map Prod.fst) :
    ∃ c ∈ supporters L' s, x ∈ c.map Prod.fst := by
  obtain ⟨c, hc, hxc⟩ := hx
  simp only [supporters, List.mem_filter, decide_eq_true_eq] at hc
  have hm : Multiset.ofList c ∈ L'.map Multiset.ofList :=
    h.subset (List.mem_map_of_mem _ hc.1)
  obtain ⟨c', hc', he⟩ := List.mem_map.mp hm
  have hperm : c'.Perm c := Multiset.coe_eq_coe.mp he
  refine ⟨c', ?_, (hperm.map Prod.fst).mem_iff.mpr hxc⟩
  simp only [supporters, List.mem_filter, decide_eq_true_eq]
  exact ⟨hc', (keyOf_perm c' c hperm).trans hc.2⟩

theorem invalidIndices_perm (l l' : List Share) (L L' : List (List Share)) (s : Str)
    (hp : l.Perm l')
    (h : (L.map Multiset.ofList).Perm (L'.map Multiset.ofList)) :
    invalidIndices l (supporters L s) = invalidIndices l' (supporters L' s) := by
  apply List.eq_of_perm_of_sorted _ (invalidIndices_sorted _ _) (invalidIndices_sorted _ _)
  rw [List.perm_ext_iff_of_nodup (invalidIndices_sorted _ _).nodup (invalidIndices_sorted _ _).nodup]
  intro x
  rw [mem_invalidIndices, mem_invalidIndices, (hp.map Prod.fst).mem_iff]
  constructor
  · rintro ⟨h1, h2⟩
    exact ⟨h1, fun hx => h2 (exists_supporter_perm L' L s x h.symm hx)⟩
  · rintro ⟨h1, h2⟩
    exact ⟨h1, fun hx => h2 (exists_supporter_perm L L' s x h hx)⟩

/-! ## Claims about the whole analysis -/

theorem mem_pair_combos (a b c d e g x : List Share)
    (h : x ∈ [a, b, c, d, e, g]) :
    x = a ∨ x = b ∨ x = c ∨ x = d ∨ x = e ∨ x = g := by
  simpa using h

/-- C11 as stated fails: with `k = 2` and `f(x) = x + 5` the shares
`(1,6), (2,7)` are genuine and `(4,17), (5,20)` are corrupted; the subset
`(1,6), (2,7)` is uncorrupted, the value `f(0) = 5` has tally `2` and every other
recovered value tally `1`, and the winning secret is `5`; but the two corrupted
shares form a subset that also interpolates to `5`, so no index is reported
invalid. -/
theorem corrupted_shares_in_a_winning_subset_are_not_reported :
    ∃ f : Polynomial ℤ, f.natDegree < 2 ∧ f.eval 0 = 5 ∧
      ([((1 : Int), (6 : Int)), (2, 7), (4, 17), (5, 20)].map Prod.fst).Nodup ∧
      ([(1, 6), (2, 7)] ∈ combinations [(1, 6), (2, 7), (4, 17), (5, 20)] 2 ∧
        ∀ s ∈ [((1 : Int), (6 : Int)), (2, 7)], s.2 = f.eval s.1) ∧
      (∀ v, v ≠ 5 → 0 < tallyOf (combinations [(1, 6), (2, 7), (4, 17), (5, 20)] 2) v →
        tallyOf (combinations [(1, 6), (2, 7), (4, 17), (5, 20)] 2) v <
          tallyOf (combinations [(1, 6), (2, 7), (4, 17), (5, 20)] 2) 5) ∧
      ((17 : Int) ≠ f.eval 4 ∧ (20 : Int) ≠ f.eval 5) ∧
      lagrangeInterpolationAtZero [(4, 17), (5, 20)] = some 5 ∧
      (analyze false [(1, 6), (2, 7), (4, 17), (5, 20)] 2).map
        (fun r => (r.bestSecret, r.maxFreq, r.invalid)) = some (get_str 5, 2, []) ∧
      (analyze true [(1, 6), (2, 7), (4, 17), (5, 20)] 2).map
        (fun r => (r.bestSecret, r.maxFreq, r.invalid)) = some (get_str 5, 2, []) := by
  have hc : combinations [(1, 6), (2, 7), (4, 17), (5, 20)] 2 =
      [[(1, 6), (2, 7)], [(1, 6), (4, 17)], [(1, 6), (5, 20)], [(2, 7), (4, 17)],
        [(2, 7), (5, 20)], [(4, 17), (5, 20)]] := by decide
  refine ⟨X + C 5, ?_, by simp, by decide, ⟨by decide, ?_⟩, ?_, by simp, by decide, by decide,
    by decide⟩
  · rw [Polynomial.natDegree_X_add_C]; decide
  · intro s hs
    simp only [List.mem_cons, List.mem_singleton, List.not_mem_nil, or_false] at hs
    rcases hs with rfl | rfl <;> simp
  · intro v hv hpos
    obtain ⟨c, hcm, hcv⟩ := (tallyOf_pos_iff _ _).mp hpos
    have h5 : tallyOf (combinations [(1, 6), (2, 7), (4, 17), (5, 20)] 2) 5 = 2 := by decide
    rw [h5]
    rw [hc] at hcm
    rcases mem_pair_combos _ _ _ _ _ _ _ hcm with rfl | rfl | rfl | rfl | rfl | rfl
    · exact absurd (Option.some.inj ((show lagrangeInterpolationAtZero
        [(1, 6), (2, 7)] = some 5 by decide).symm.trans hcv)).symm hv
    · have : v = 3 := (Option.some.inj ((show lagrangeInterpolationAtZero
        [(1, 6), (4, 17)] = some 3 by decide).symm.trans hcv)).symm
      subst this; decide
    · have : v = 2 := (Option.some.inj ((show lagrangeInterpolationAtZero
        [(1, 6), (5, 20)] = some 2 by decide).symm.trans hcv)).symm
      subst this; decide
    · have : v = -3 := (Option.some.inj ((show lagrangeInterpolationAtZero
        [(2, 7), (4, 17)] = some (-3) by decide).symm.trans hcv)).symm
      subst this; decide
    · have : v = -2 := (Option.some.inj ((show lagrangeInterpolationAtZero
        [(2, 7), (5, 20)] = some (-2) by decide).symm.trans hcv)).symm
      subst this; decide
    · exact absurd (Option.some.inj ((show lagrangeInterpolationAtZero
        [(4, 17), (5, 20)] = some 5 by decide).symm.trans hcv)).symm hv

/-- C11, amended: for an integer polynomial `f` and shares with pairwise distinct
x-values, if some `k`-subset consists only of uncorrupted shares and the tally of
`f(0)` is strictly greater than the tally of every other recovered value, then the
winning secret is `f(0)`, and a corrupted share's x-value is reported invalid
exactly when no `k`-subset interpolating to `f(0)` contains a share with that
x-value. -/
theorem strict_plurality_recovers_secret (throws : Bool) (f : Polynomial ℤ)
    (shares : List Share) (k : Int) (hnd : (shares.map Prod.fst).Nodup)
    (hclean : ∃ c ∈ combinations shares k, ∀ s ∈ c, s.2 = f.eval s.1)
    (hplur : ∀ v, v ≠ f.eval 0 → 0 < tallyOf (combinations shares k) v →
      tallyOf (combinations shares k) v < tallyOf (combinations shares k) (f.eval 0)) :
    ∃ r, analyze throws shares k = some r ∧ r.bestSecret = get_str (f.eval 0) ∧
      ∀ s ∈ shares, s.2 ≠ f.eval s.1 →
        (s.1 ∈ r.invalid ↔
          ¬ ∃ c ∈ combinations shares k,
            lagrangeInterpolationAtZero c = some (f.eval 0) ∧ s.1 ∈ c.map Prod.fst) := by
  obtain ⟨c0, hc0, _⟩ := hclean
  have hz0 := lagrange_of_nodup c0 (mem_combinations_nodup shares k c0 hnd hc0)
  obtain ⟨r, z, hr, hb, hpos, hmax, _, _, _⟩ :=
    analyze_winner throws shares k (Or.inr hnd) ⟨c0, hc0, _, hz0⟩
  have hz : z = f.eval 0 := by
    by_contra hne
    have h1 := hplur z hne hpos
    have h2 := hmax (f.eval 0)
    omega
  subst hz
  obtain ⟨r', hr', _, _, _, _, hinv⟩ := analyze_spec throws shares k (Or.inr hnd)
  have hrr : r' = r := Option.some.inj (hr'.symm.trans hr)
  subst hrr
  refine ⟨r', hr, hb, fun s hs _ => ?_⟩
  rw [hinv, mem_invalidIndices, hb]
  have hx : s.1 ∈ shares.map Prod.fst := List.mem_map_of_mem Prod.fst hs
  simp only [hx, true_and, supporters, List.mem_filter, decide_eq_true_eq, keyOf_eq_get_str,
    and_assoc]

theorem strict_plurality_recovers_secret_witness :
    ∃ r, analyze false [(1, 6), (2, 7), (3, 8), (4, 17)] 2 = some r ∧
      r.bestSecret = get_str ((X + C 5 : Polynomial ℤ).eval 0) ∧
      ∀ s ∈ [((1 : Int), (6 : Int)), (2, 7), (3, 8), (4, 17)],
        s.2 ≠ (X + C 5 : Polynomial ℤ).eval s.1 →
        (s.1 ∈ r.invalid ↔
          ¬ ∃ c ∈ combinations [(1, 6), (2, 7), (3, 8), (4, 17)] 2,
            lagrangeInterpolationAtZero c = some ((X + C 5 : Polynomial ℤ).eval 0) ∧
              s.1 ∈ c.map Prod.fst) :=
  have hc : combinations [(1, 6), (2, 7), (3, 8), (4, 17)] 2 =
      [[(1, 6), (2, 7)], [(1, 6), (3, 8)], [(1, 6), (4, 17)], [(2, 7), (3, 8)],
        [(2, 7), (4, 17)], [(3, 8), (4, 17)]] := by decide
  have h0 : (X + C 5 : Polynomial ℤ).eval 0 = 5 := by simp
  strict_plurality_recovers_secret false (X + C 5) [(1, 6), (2, 7), (3, 8), (4, 17)] 2
    (by decide)
    ⟨[(1, 6), (2, 7)], by decide, by
      intro s hs
      simp only [List.mem_cons, List.mem_singleton, List.not_mem_nil, or_false] at hs
      rcases hs with rfl | rfl <;> simp⟩
    (by
      intro v hv hpos
      rw [h0] at hv ⊢
      obtain ⟨c, hcm, hcv⟩ := (tallyOf_pos_iff _ _).mp hpos
      have h5 : tallyOf (combinations [(1, 6), (2, 7), (3, 8), (4, 17)] 2) 5 = 3 := by decide
      rw [h5]
      rw [hc] at hcm
      rcases mem_pair_combos _ _ _ _ _ _ _ hcm with rfl | rfl | rfl | rfl | rfl | rfl
      · exact absurd (Option.some.inj ((show lagrangeInterpolationAtZero
          [(1, 6), (2, 7)] = some 5 by decide).symm.trans hcv)).symm hv
      · exact absurd (Option.some.inj ((show lagrangeInterpolationAtZero
          [(1, 6), (3, 8)] = some 5 by decide).symm.trans hcv)).symm hv
      · have : v = 3 := (Option.some.inj ((show lagrangeInterpolationAtZero
          [(1, 6), (4, 17)] = some 3 by decide).symm.trans hcv)).symm
        subst this; decide
      · exact absurd (Option.some.inj ((show lagrangeInterpolationAtZero
          [(2, 7), (3, 8)] = some 5 by decide).symm.trans hcv)).symm hv
      · have : v = -3 := (Option.some.inj ((show lagrangeInterpolationAtZero
          [(2, 7), (4, 17)] = some (-3) by decide).symm.trans hcv)).symm
        subst this; decide
      · have : v = -19 := (Option.some.inj ((show lagrangeInterpolationAtZero
          [(3, 8), (4, 17)] = some (-19) by decide).symm.trans hcv)).symm
        subst this; decide)

/-- C12 as stated fails: with two shares and `k = 3` there is no subset, and the
analysis reports an empty secret with support `0` and lists both input indices
as invalid (whether or not a failed division would be caught). -/
theorem no_subsets_is_reported_as_all_invalid :
    combinations [(1, 5), (2, 7)] 3 = [] ∧
    (analyze false [(1, 5), (2, 7)] 3).map (fun r => r.maps.freq) = some [] ∧
    (analyze false [(1, 5), (2, 7)] 3).map
      (fun r => (r.bestSecret, r.maxFreq, r.invalid)) = some ([], 0, [1, 2]) ∧
    (analyze true [(1, 5), (2, 7)] 3).map
      (fun r => (r.bestSecret, r.maxFreq, r.invalid)) = some ([], 0, [1, 2]) :=
  ⟨by decide, by decide, by decide, by decide⟩

/-- C12, amended: for every share list and every threshold `k > n` there is no
subset and the frequency table is empty; the analysis then reports the empty
string as secret (which no interpolated value prints as) with support `0`, and it
does list every input share index as invalid. -/
theorem threshold_above_share_count_flags_every_index (throws : Bool) (shares : List Share)
    (k : Int) (hk : (shares.length : Int) < k) :
    combinations shares k = [] ∧
    ∃ r, analyze throws shares k = some r ∧ r.maps.freq = [] ∧ r.bestSecret = [] ∧
      r.maxFreq = 0 ∧ (∀ z, r.bestSecret ≠ get_str z) ∧
      ∀ x, x ∈ r.invalid ↔ x ∈ shares.map Prod.fst := by
  have hc := combinations_of_length_lt shares k hk
  refine ⟨hc, ⟨[], 0, ⟨[], []⟩, allIndices shares⟩, ?_, rfl, rfl, rfl,
    fun z h => get_str_ne_nil z h.symm, fun x => mem_allIndices shares x⟩
  simp only [analyze, hc, tally, List.foldl_nil, selectBest, mapGet, invalidIndices_nil]

theorem threshold_above_share_count_flags_every_index_witness :
    combinations [(1, 5), (2, 7)] 3 = [] ∧
    ∃ r, analyze false [(1, 5), (2, 7)] 3 = some r ∧ r.maps.freq = [] ∧ r.bestSecret = [] ∧
      r.maxFreq = 0 ∧ (∀ z, r.bestSecret ≠ get_str z) ∧
      ∀ x, x ∈ r.invalid ↔ x ∈ [((1 : Int), (5 : Int)), (2, 7)].map Prod.fst :=
  threshold_above_share_count_flags_every_index false [(1, 5), (2, 7)] 3 (by decide)

/-- C13, evaluated on the code: the shares `(1,2), (1,3), (2,5)` with `k = 2`
have the subset `(1,2), (1,3)` with a repeated x-value, whose interpolation
divides by zero.  When that failure is not a C++ exception the run ends without a
report; the tally over the two remaining subsets is produced only when the failure
reaches `catch (...)`. -/
theorem degenerate_subset_ends_the_run :
    combinations [(1, 2), (1, 3), (2, 5)] 2 =
      [[(1, 2), (1, 3)], [(1, 2), (2, 5)], [(1, 3), (2, 5)]] ∧
    lagrangeInterpolationAtZero [(1, 2), (1, 3)] = none ∧
    (analyze false [(1, 2), (1, 3), (2, 5)] 2).isNone = true ∧
    (analyze true [(1, 2), (1, 3), (2, 5)] 2).map (fun r => r.maps.freq)
      = some [(get_str (-1), 1), (get_str 1, 1)] :=
  ⟨by decide, by decide, by decide, by decide⟩

/-- C16: for shares with pairwise distinct x-values and `k = n`, the
enumeration yields exactly one subset, the whole share list in input order;
`bestSecret` is the decimal string of its interpolation, with support count `1`,
and no share index is reported invalid. -/
theorem threshold_equal_to_share_count (throws : Bool) (shares : List Share)
    (hnd : (shares.map Prod.fst).Nodup) :
    combinations shares (shares.length : Int) = [shares] ∧
    ∃ r z, analyze throws shares (shares.length : Int) = some r ∧
      lagrangeInterpolationAtZero shares = some z ∧
      r.bestSecret = get_str z ∧ r.maxFreq = 1 ∧ r.invalid = [] := by
  have hc : combinations shares (shares.length : Int) = [shares] := by
    rw [combinations_eq_selections, selections_length_self]
  have hz := lagrange_of_nodup shares hnd
  refine ⟨hc, ⟨get_str (specSum shares), 1,
    ⟨[(get_str (specSum shares), 1)], [(get_str (specSum shares), [shares])]⟩, []⟩,
    specSum shares, ?_, hz, rfl, rfl, rfl⟩
  have hinv : invalidIndices shares [shares] = [] := by
    apply List.eq_nil_iff_forall_not_mem.mpr
    intro x hx
    rw [mem_invalidIndices] at hx
    exact hx.2 ⟨shares, List.mem_singleton_self _, hx.1⟩
  simp only [analyze, hc, tally, List.foldl_cons, List.foldl_nil, tallyStep, hz, mapUpdate,
    selectBest, selectStep, mapGet]
  simp [hinv, strLt_irrefl]

theorem threshold_equal_to_share_count_witness :
    combinations [(1, 2), (2, 5), (4, 17)] (([((1 : Int), (2 : Int)), (2, 5), (4, 17)].length :
      Nat) : Int) = [[(1, 2), (2, 5), (4, 17)]] ∧
    ∃ r z, analyze false [(1, 2), (2, 5), (4, 17)]
        (([((1 : Int), (2 : Int)), (2, 5), (4, 17)].length : Nat) : Int) = some r ∧
      lagrangeInterpolationAtZero [(1, 2), (2, 5), (4, 17)] = some z ∧
      r.bestSecret = get_str z ∧ r.maxFreq = 1 ∧ r.invalid = [] :=
  threshold_equal_to_share_count false [(1, 2), (2, 5), (4, 17)] (by decide)

/-- C20: for `n` shares with pairwise distinct x-values and `0 ≤ k ≤ n`, the
winning secret is the decimal string of a value that at least one subset
interpolates to; at least `k` indices are in `validIndices`, and at most `n - k`
indices are reported invalid. -/
theorem at_most_n_minus_k_indices_invalid (throws : Bool) (shares : List Share) (k : Nat)
    (hnd : (shares.map Prod.fst).Nodup) (hk : k ≤ shares.length) :
    ∃ r z, analyze throws shares (k : Int) = some r ∧ r.bestSecret = get_str z ∧
      (∃ c ∈ combinations shares (k : Int), lagrangeInterpolationAtZero c = some z) ∧
      k ≤ (validIndices (mapGet r.bestSecret [] r.maps.sourceMap)).length ∧
      r.invalid.length ≤ shares.length - k := by
  have hne : combinations shares (k : Int) ≠ [] := by
    intro h
    have := congrArg List.length h
    rw [combinations_eq_selections, length_selections] at this
    have := Nat.choose_pos hk
    simp at *
    omega
  obtain ⟨c0, hc0⟩ := List.exists_mem_of_ne_nil _ hne
  have hz0 := lagrange_of_nodup c0 (mem_combinations_nodup shares k c0 hnd hc0)
  obtain ⟨r, z, hr, hb, hpos, _, _, hsrc, _⟩ :=
    analyze_winner throws shares k (Or.inr hnd) ⟨c0, hc0, _, hz0⟩
  obtain ⟨r', hr', _, _, _, _, hinv⟩ := analyze_spec throws shares k (Or.inr hnd)
  have hrr : r' = r := Option.some.inj (hr'.symm.trans hr)
  subst hrr
  obtain ⟨c, hc, hcz⟩ := (tallyOf_pos_iff _ _).mp hpos
  have hcw : c ∈ supporters (combinations shares (k : Int)) (get_str z) := by
    simp only [supporters, List.mem_filter, decide_eq_true_eq, keyOf_eq_get_str]
    exact ⟨hc, hcz⟩
  have hclen : c.length = k := by
    rw [combinations_eq_selections] at hc
    exact length_of_mem_selections k shares c hc
  have hcnd : (c.map Prod.fst).Nodup := mem_combinations_nodup shares k c hnd hc
  have hcsub : c.Sublist shares := mem_combinations_sublist shares k c hc
  refine ⟨r', z, hr, hb, ⟨c, hc, hcz⟩, ?_, ?_⟩
  · rw [hsrc]
    have hsub : c.map Prod.fst ⊆ validIndices (supporters (combinations shares (k : Int))
        (get_str z)) := by
      intro x hx
      exact (mem_validIndices _ x).mpr ⟨c, hcw, hx⟩
    have := (List.subperm_of_subset hcnd hsub).length_le
    simpa [hclen] using this
  · rw [hinv, hb]
    have hdisj : List.Disjoint (invalidIndices shares
        (supporters (combinations shares (k : Int)) (get_str z))) (c.map Prod.fst) := by
      intro x hx hxc
      exact ((mem_invalidIndices _ _ x).mp hx).2 ⟨c, hcw, hxc⟩
    have hnd2 : (invalidIndices shares (supporters (combinations shares (k : Int)) (get_str z))
        ++ c.map Prod.fst).Nodup :=
      List.Nodup.append (invalidIndices_sorted _ _).nodup hcnd hdisj
    have hsub : invalidIndices shares (supporters (combinations shares (k : Int)) (get_str z))
        ++ c.map Prod.fst ⊆ shares.map Prod.fst := by
      intro x hx
      rcases List.mem_append.mp hx with h | h
      · exact ((mem_invalidIndices _ _ x).mp h).1
      · exact (hcsub.map Prod.fst).subset h
    have := (List.subperm_of_subset hnd2 hsub).length_le
    simp only [List.length_append, List.length_map, hclen] at this
    omega

theorem at_most_n_minus_k_indices_invalid_witness :
    ∃ r z, analyze false [(1, 2), (2, 5), (3, 10), (4, 17), (5, 1)] ((3 : Nat) : Int) = some r ∧
      r.bestSecret = get_str z ∧
      (∃ c ∈ combinations [(1, 2), (2, 5), (3, 10), (4, 17), (5, 1)] ((3 : Nat) : Int),
        lagrangeInterpolationAtZero c = some z) ∧
      3 ≤ (validIndices (mapGet r.bestSecret [] r.maps.sourceMap)).length ∧
      r.invalid.length ≤ [((1 : Int), (2 : Int)), (2, 5), (3, 10), (4, 17), (5, 1)].length - 3 :=
  at_most_n_minus_k_indices_invalid false [(1, 2), (2, 5), (3, 10), (4, 17), (5, 1)] 3
    (by decide) (by decide)

/-- C17: for shares with pairwise distinct x-values, if every per-term division is
exact, the function returns an integer `z` that is the value at `0` of the unique
rational polynomial of degree below `k` through the `k` points; in particular
`z = f(0)` when the shares lie on an integer polynomial `f` of degree at most
`k - 1`. -/
theorem exact_divisions_give_interpolated_value (shares : List Share)
    (hnd : (shares.map Prod.fst).Nodup)
    (hex : ∀ i, i < shares.length →
      (numDen shares i).2 ∣ (at_ shares i).2 * (numDen shares i).1) :
    ∃ z, lagrangeInterpolationAtZero shares = some z ∧
      (∃ p : Polynomial ℚ, p.degree < (shares.length : WithBot ℕ) ∧
        (∀ s ∈ shares, p.eval (s.1 : ℚ) = (s.2 : ℚ)) ∧
        (∀ q : Polynomial ℚ, q.degree < (shares.length : WithBot ℕ) →
          (∀ s ∈ shares, q.eval (s.1 : ℚ) = (s.2 : ℚ)) → q = p) ∧
        p.eval 0 = (z : ℚ)) ∧
      (∀ f : Polynomial ℤ, f.natDegree < shares.length →
        (∀ s ∈ shares, s.2 = f.eval s.1) → z = f.eval 0) := by
  have hinj := injOn_nodes shares hnd
  refine ⟨specSum shares, lagrange_of_nodup shares hnd, ⟨Lagrange.interpolate
    (Finset.range shares.length) (fun j => ((at_ shares j).1 : ℚ))
    (fun j => ((at_ shares j).2 : ℚ)), ?_, ?_, ?_, ?_⟩, ?_⟩
  · have := Lagrange.degree_interpolate_lt (fun j => ((at_ shares j).2 : ℚ)) hinj
    simpa using this
  · intro s hs
    obtain ⟨i, hi, rfl⟩ := exists_at_of_mem shares s hs
    exact Lagrange.eval_interpolate_at_node (fun j => ((at_ shares j).2 : ℚ)) hinj
      (Finset.mem_range.mpr hi)
  · intro q hq hon
    apply Lagrange.eq_interpolate_of_eval_eq _ hinj (by simpa using hq)
    intro i hi
    exact hon _ (at_mem shares i (Finset.mem_range.mp hi))
  · rw [eval_zero_interpolate, exact_specSum_cast shares hnd hex]
  · intro f hdeg hon
    exact exact_on_polynomial f shares hdeg hnd hon hex

theorem exact_divisions_give_interpolated_value_witness :
    ∃ z, lagrangeInterpolationAtZero [(1, 2), (2, 5), (3, 10)] = some z ∧
      (∃ p : Polynomial ℚ,
        p.degree < (([((1 : Int), (2 : Int)), (2, 5), (3, 10)].length : Nat) : WithBot ℕ) ∧
        (∀ s ∈ [((1 : Int), (2 : Int)), (2, 5), (3, 10)], p.eval (s.1 : ℚ) = (s.2 : ℚ)) ∧
        (∀ q : Polynomial ℚ,
          q.degree < (([((1 : Int), (2 : Int)), (2, 5), (3, 10)].length : Nat) : WithBot ℕ) →
          (∀ s ∈ [((1 : Int), (2 : Int)), (2, 5), (3, 10)], q.eval (s.1 : ℚ) = (s.2 : ℚ)) →
          q = p) ∧
        p.eval 0 = (z : ℚ)) ∧
      (∀ f : Polynomial ℤ, f.natDegree < [((1 : Int), (2 : Int)), (2, 5), (3, 10)].length →
        (∀ s ∈ [((1 : Int), (2 : Int)), (2, 5), (3, 10)], s.2 = f.eval s.1) → z = f.eval 0) :=
  exact_divisions_give_interpolated_value [(1, 2), (2, 5), (3, 10)] (by decide) (by decide)

/-- C18: for arbitrary integers `y 1, ..., y k` at the indices `1..k` every
per-term division is exact and the function returns the sum over `i = 1..k` of
`(-1)^(i+1) * C(k, i) * y i`; and for every integer polynomial `f` of degree at
most `k - 1` the shares `(1, f(1)), ..., (k, f(k))` give `f(0)`. -/
theorem consecutive_indices_give_binomial_sum (y : Nat → Int) (k : Nat) :
    (∀ i, i < k → (numDen (consecutiveShares y k) i).2 ∣
      (at_ (consecutiveShares y k) i).2 * (numDen (consecutiveShares y k) i).1) ∧
    lagrangeInterpolationAtZero (consecutiveShares y k) =
      some (∑ i in Finset.Icc 1 k, (-1) ^ (i + 1) * (Nat.choose k i : ℤ) * y i) ∧
    (∀ f : Polynomial ℤ, f.natDegree < k →
      lagrangeInterpolationAtZero (consecutiveShares (fun i => f.eval (i : ℤ)) k) =
        some (f.eval 0)) := by
  have hex : ∀ (y : Nat → Int) (i : Nat), i < k →
      (numDen (consecutiveShares y k) i).2 ∣
        (at_ (consecutiveShares y k) i).2 * (numDen (consecutiveShares y k) i).1 := by
    intro y i hi
    simp only [numDen_eq]
    exact (term_consecutive y k i hi).1
  refine ⟨hex y, ?_, ?_⟩
  · rw [lagrange_of_nodup _ (nodup_consecutiveShares y k), specSum, length_consecutiveShares,
      ← Nat.Ico_succ_right, Finset.sum_Ico_eq_sum_range]
    congr 1
    apply Finset.sum_congr (by simp)
    intro i hi
    rw [(term_consecutive y k i (Finset.mem_range.mp hi)).2, Nat.add_comm 1 i, pow_succ, pow_succ]
    ring
  · intro f hdeg
    rw [lagrange_of_nodup _ (nodup_consecutiveShares _ k)]
    congr 1
    apply exact_on_polynomial f _ (by rw [length_consecutiveShares]; exact hdeg)
      (nodup_consecutiveShares _ k)
    · intro s hs
      simp only [consecutiveShares, List.mem_map, List.mem_range] at hs
      obtain ⟨i, _, rfl⟩ := hs
      rfl
    · intro i hi
      rw [length_consecutiveShares] at hi
      exact hex _ i hi

theorem consecutive_indices_give_binomial_sum_witness :
    consecutiveShares (fun i => (X ^ 2 + C 1 : Polynomial ℤ).eval (i : ℤ)) 3 =
      [(1, 2), (2, 5), (3, 10)] ∧
    lagrangeInterpolationAtZero [(1, 2), (2, 5), (3, 10)] = some 1 ∧
    lagrangeInterpolationAtZero
        (consecutiveShares (fun i => (X ^ 2 + C 1 : Polynomial ℤ).eval (i : ℤ)) 3) =
      some ((X ^ 2 + C 1 : Polynomial ℤ).eval 0) :=
  ⟨by simp [consecutiveShares, List.range_succ], by decide,
    (consecutive_indices_give_binomial_sum (fun _ => 0) 3).2.2 (X ^ 2 + C 1)
      (by rw [natDegree_sq_add_one]; decide)⟩

/-- C14: for a base `b` with `2 ≤ b ≤ 62` and a non-empty string whose characters
are all digits of base `b` (digit values as in `digitValue`: `0`-`9`, then letters,
case-insensitive up to base `36`, upper case `10..35` and lower case `36..61`
above), `decodeBase` returns the non-negative integer
`sum_i value(d_i) * b^(m - 1 - i)` over the positions `i = 0 .. m-1`, exactly, for
every length `m`; a string of the maximum digit `b - 1` decodes to `b^m - 1`. -/
theorem decodeBase_is_positional_value (b : Int) (str : Str) (hb2 : 2 ≤ b) (hb62 : b ≤ 62)
    (hne : str ≠ []) (hvalid : ∀ c ∈ str, ∃ d, digitValue b c = some d ∧ (d : Int) < b) :
    decodeBase str b =
      ∑ i in Finset.range str.length,
        (((digitValue b (str.getD i '0')).getD 0 : Nat) : Int) * b ^ (str.length - 1 - i) ∧
    0 ≤ decodeBase str b ∧
    ((∀ c ∈ str, digitValue b c = some (b - 1).toNat) →
      decodeBase str b = b ^ str.length - 1) := by
  have hv : ∀ c ∈ str, validDigit b c = true := fun c hc => (validDigit_iff b c).mpr (hvalid c hc)
  have hsum : decodeBase str b =
      ∑ i in Finset.range str.length,
        (((digitValue b (str.getD i '0')).getD 0 : Nat) : Int) * b ^ (str.length - 1 - i) := by
    rw [decodeBase_valid b str hb2 hb62 hne hv, positional_eq_sum, List.length_map]
    apply Finset.sum_congr rfl
    intro i hi
    have hi' : i < str.length := Finset.mem_range.mp hi
    simp [List.getD_eq_getElem?_getD, List.getElem?_map, List.getElem?_eq_getElem hi']
  refine ⟨hsum, ?_, ?_⟩
  · rw [hsum]
    apply Finset.sum_nonneg
    intro i _
    exact mul_nonneg (Int.ofNat_nonneg _) (pow_nonneg (by omega) _)
  · intro hmax
    rw [hsum]
    have hterm : ∀ i ∈ Finset.range str.length,
        (((digitValue b (str.getD i '0')).getD 0 : Nat) : Int) * b ^ (str.length - 1 - i) =
          (b - 1) * b ^ (str.length - 1 - i) := by
      intro i hi
      have hi' : i < str.length := Finset.mem_range.mp hi
      have hmem : str.getD i '0' ∈ str := by
        rw [List.getD_eq_getElem _ _ hi']
        exact List.getElem_mem hi'
      rw [hmax _ hmem, Option.getD_some, Int.toNat_of_nonneg (by omega)]
    rw [Finset.sum_congr rfl hterm, ← Finset.mul_sum,
      Finset.sum_range_reflect (fun j => b ^ j) str.length, mul_geom_sum]

theorem decodeBase_is_positional_value_witness :
    (decodeBase ['z', 'Z', '9'] 62 =
      ∑ i in Finset.range ['z', 'Z', '9'].length,
        (((digitValue 62 (['z', 'Z', '9'].getD i '0')).getD 0 : Nat) : Int) *
          62 ^ (['z', 'Z', '9'].length - 1 - i) ∧
    0 ≤ decodeBase ['z', 'Z', '9'] 62 ∧
    ((∀ c ∈ ['z', 'Z', '9'], digitValue 62 c = some ((62 : Int) - 1).toNat) →
      decodeBase ['z', 'Z', '9'] 62 = 62 ^ ['z', 'Z', '9'].length - 1)) ∧
    decodeBase ['z', 'Z', '9'] 62 = 61 * 62 ^ 2 + 35 * 62 + 9 ∧
    decodeBase ['z', 'Z'] 36 = 35 * 36 + 35 ∧
    decodeBase ['1', '1', '1', '1'] 2 = 2 ^ 4 - 1 :=
  ⟨decodeBase_is_positional_value 62 ['z', 'Z', '9'] (by decide) (by decide) (by decide)
    (by decide), by decide, by decide, by decide⟩

/-- C15 as stated fails: `"12"` in base `2` contains the character `2`, whose
digit value equals the base; `mpz_set_str` reports status `-1`, which `decodeBase`
discards, returning the integer `0`; the same for base `63` and for the non-digit
`!` in base `10`. -/
theorem decodeBase_returns_zero_without_error :
    digitValue 2 '2' = some 2 ∧ validDigit 2 '2' = false ∧
    mpz_set_str 0 (c_str ['1', '2']) 2 = (0, -1) ∧ decodeBase ['1', '2'] 2 = 0 ∧
    mpz_set_str 0 (c_str ['1', '2']) 63 = (0, -1) ∧ decodeBase ['1', '2'] 63 = 0 ∧
    mpz_set_str 0 (c_str ['4', '!']) 10 = (0, -1) ∧ decodeBase ['4', '!'] 10 = 0 :=
  ⟨by decide, by decide, by decide, by decide, by decide, by decide, by decide, by decide⟩

/-- C15, amended: `decodeBase` never fails with an error; it returns the integer
`0` (its value-initialised result, the status of `mpz_set_str` being discarded)
for every base below `0`, equal to `1` or above `62`, and, for a base from `2` to
`62`, for every digit string containing, before any NUL, a character other than
white space and `-` that is not a digit of that base. -/
theorem decodeBase_is_zero_on_malformed_input (str : Str) (b : Int)
    (h : (b < 0 ∨ b = 1 ∨ 62 < b) ∨
      (2 ≤ b ∧ b ≤ 62 ∧
        ∃ c ∈ c_str str, validDigit b c = false ∧ isspace c = false ∧ c ≠ '-')) :
    decodeBase str b = 0 := by
  rcases h with h | ⟨hb2, _, c, hc, hbad, hsp, hm⟩
  · exact decodeBase_bad_base str b h
  · rw [decodeBase, mpz_set_str_invalid 0 b (c_str str) hb2 c hc hbad hsp hm]

theorem decodeBase_is_zero_on_malformed_input_witness :
    decodeBase ['1', '2'] 2 = 0 :=
  decodeBase_is_zero_on_malformed_input ['1', '2'] 2
    (Or.inr ⟨by decide, by decide, '2', by decide, by decide, by decide, by decide⟩)

/-- C19: `lagrangeInterpolationAtZero` gives the same result on every permutation
of a list of shares; and for shares with pairwise distinct x-values, every
permutation of the share list and every `k`, the analysis returns a report with
the same `bestSecret`, the same `maxFreq` and the same list of invalid indices. -/
theorem analysis_is_independent_of_input_order (throws : Bool) (shares shares' : List Share)
    (k : Int) (hp : shares.Perm shares') (hnd : (shares.map Prod.fst).Nodup) :
    (∀ c c' : List Share, c.Perm c' →
      lagrangeInterpolationAtZero c = lagrangeInterpolationAtZero c') ∧
    ∃ r r', analyze throws shares k = some r ∧ analyze throws shares' k = some r' ∧
      r.bestSecret = r'.bestSecret ∧ r.maxFreq = r'.maxFreq ∧ r.invalid = r'.invalid := by
  refine ⟨lagrange_perm, ?_⟩
  have hnd' : (shares'.map Prod.fst).Nodup := (hp.map Prod.fst).nodup_iff.mp hnd
  obtain ⟨r, hr, hle, hmax, _, htie, hinv⟩ := analyze_spec throws shares k (Or.inr hnd)
  obtain ⟨r', hr', hle', hmax', _, htie', hinv'⟩ := analyze_spec throws shares' k (Or.inr hnd')
  have hL := combinations_perm_coe k shares shares' hp
  have hcnt : ∀ s, (supporters (combinations shares k) s).length =
      (supporters (combinations shares' k) s).length :=
    fun s => supporters_length_perm _ _ s hL
  have hfreq : r.maxFreq = r'.maxFreq := by
    apply Nat.le_antisymm
    · rw [hmax, hcnt]; exact hle' _
    · rw [hmax', ← hcnt]; exact hle _
  have hbest : r.bestSecret = r'.bestSecret := by
    by_cases h0 : r.maxFreq = 0
    · rw [analyze_bestSecret_nil throws shares k r hr h0,
        analyze_bestSecret_nil throws shares' k r' hr' (hfreq ▸ h0)]
    · have hpos : 0 < r.maxFreq := Nat.pos_of_ne_zero h0
      have h1 := htie r'.bestSecret (by rw [hcnt, ← hmax', hfreq]) hpos
      have h2 := htie' r.bestSecret (by rw [← hcnt, ← hmax, hfreq]) (hfreq ▸ hpos)
      rcases h1 with h1 | h1
      · exact h1.symm
      · rcases h2 with h2 | h2
        · exact h2
        · rw [strLt_asymm _ _ h1] at h2
          exact Bool.noConfusion h2
  refine ⟨r, r', hr, hr', hbest, hfreq, ?_⟩
  rw [hinv, hinv', ← hbest]
  exact invalidIndices_perm shares shares' _ _ _ hp hL

theorem analysis_is_independent_of_input_order_witness :
    ((∀ c c' : List Share, c.Perm c' →
      lagrangeInterpolationAtZero c = lagrangeInterpolationAtZero c') ∧
    ∃ r r', analyze false [(1, 2), (2, 5), (3, 10), (4, 17), (5, 1)] 3 = some r ∧
      analyze false [(5, 1), (3, 10), (1, 2), (4, 17), (2, 5)] 3 = some r' ∧
      r.bestSecret = r'.bestSecret ∧ r.maxFreq = r'.maxFreq ∧ r.invalid = r'.invalid) ∧
    (analyze false [(5, 1), (3, 10), (1, 2), (4, 17), (2, 5)] 3).map
      (fun r => (r.bestSecret, r.maxFreq, r.invalid)) = some (['1'], 3, [5]) :=
  ⟨analysis_is_independent_of_input_order false [(1, 2), (2, 5), (3, 10), (4, 17), (5, 1)]
    [(5, 1), (3, 10), (1, 2), (4, 17), (2, 5)] 3 (by decide) (by decide), by decide⟩

/-! ## Ties, on every run that completes -/

theorem analyze_total (throws : Bool) (shares : List Share) (k : Int)
    (h : throws = true ∨
      ∀ c ∈ combinations shares k, lagrangeInterpolationAtZero c ≠ none) :
    ∃ r, analyze throws shares k = some r := by
  have ht : ∃ t, tally throws (combinations shares k) = some t := by
    apply tally_exists
    intro c hc
    rcases h with h | h
    · exact Or.inl h
    · exact Or.inr (h c hc)
  obtain ⟨t, ht⟩ := ht
  refine ⟨⟨(selectBest t.freq).1, (selectBest t.freq).2, t,
    invalidIndices shares (mapGet (selectBest t.freq).1 [] t.sourceMap)⟩, ?_⟩
  simp only [analyze, ht]

theorem tally_none_of_fail (combs : List (List Share))
    (h : ∃ c ∈ combs, lagrangeInterpolationAtZero c = none) :
    ∀ t0, combs.foldl (tallyStep false) (some t0) = none := by
  induction combs with
  | nil => obtain ⟨c, hc, _⟩ := h; simp at hc
  | cons c rest ih =>
    intro t0
    simp only [List.foldl_cons]
    cases hz : lagrangeInterpolationAtZero c with
    | none =>
      simp only [tallyStep, hz, Bool.false_eq_true, if_false]
      exact foldl_tallyStep_none false rest
    | some z =>
      simp only [tallyStep, hz]
      apply ih
      obtain ⟨c', hc', hn⟩ := h
      rcases List.mem_cons.mp hc' with rfl | hr
      · rw [hz] at hn; exact Option.noConfusion hn
      · exact ⟨c', hr, hn⟩

/-- The analysis produces a report exactly when a failed division is caught or no
enumerated subset fails to interpolate. -/
theorem analyze_completes_iff (throws : Bool) (shares : List Share) (k : Int) :
    (∃ r, analyze throws shares k = some r) ↔
      (throws = true ∨ ∀ c ∈ combinations shares k, lagrangeInterpolationAtZero c ≠ none) := by
  constructor
  · rintro ⟨r, hr⟩
    obtain ⟨t, ht, _⟩ := analyze_eq_some throws shares k r hr
    cases throws with
    | true => exact Or.inl rfl
    | false =>
      right
      intro c hc hn
      rw [tally, tally_none_of_fail _ ⟨c, hc, hn⟩] at ht
      exact Option.noConfusion ht
  · exact analyze_total throws shares k

/-- What a completed analysis has computed, in terms of the subsets filed under
each key. -/
theorem analyze_spec_run (throws : Bool) (shares : List Share) (k : Int) (r : Report)
    (hr : analyze throws shares k = some r) :
    (∀ s, (supporters (combinations shares k) s).length ≤ r.maxFreq) ∧
      r.maxFreq = (supporters (combinations shares k) r.bestSecret).length ∧
      (∀ s, (supporters (combinations shares k) s).length = r.maxFreq → 0 < r.maxFreq →
        s = r.bestSecret ∨ strLt r.bestSecret s = true) := by
  obtain ⟨t, ht, rfl⟩ := analyze_eq_some throws shares k r hr
  obtain ⟨hsf, _, hcount⟩ := tally_invariant throws _ _ t ht (by simp [keysSorted])
    (by simp [keysSorted])
  have hfreq : ∀ s, mapGet s 0 t.freq = (supporters (combinations shares k) s).length := by
    intro s; simpa [mapGet] using (hcount s).1
  obtain ⟨b, hb⟩ : ∃ b, selectBest t.freq = b := ⟨_, rfl⟩
  have hspec := selectBest_spec t.freq ([], 0)
  simp only [show List.foldl selectStep ([], 0) t.freq = b from hb] at hspec
  obtain ⟨⟨_, hmax⟩, hsel⟩ := hspec
  simp only [hb]
  refine ⟨fun s => ?_, ?_, fun s hs hpos => ?_⟩
  · rcases mapGet_mem s 0 t.freq with h0 | hm
    · rw [← hfreq, h0]; exact Nat.zero_le _
    · rw [← hfreq]; exact hmax _ hm
  · rcases hsel with ⟨h1, _⟩ | ⟨pre, post, h1, _, _⟩
    · rw [h1, supporters_nil_key]; rfl
    · have hm : b ∈ t.freq := by rw [h1]; simp
      rw [← hfreq]
      exact (mapGet_of_mem _ _ 0 _ hsf hm).symm
  · rcases hsel with ⟨h1, _⟩ | ⟨pre, post, h1, hpre, _⟩
    · rw [h1] at hpos
      exact absurd hpos (by decide)
    · have hm : (s, b.2) ∈ t.freq := by
        rcases mapGet_mem s 0 t.freq with h0 | hm
        · rw [hfreq, hs] at h0; omega
        · rwa [hfreq, hs] at hm
      rw [h1] at hm hsf
      rcases List.mem_append.mp hm with hp | hp
      · have := hpre _ hp
        simp at this
      · rcases List.mem_cons.mp hp with he | hp'
        · left
          exact congrArg Prod.fst he
        · right
          have hp2 : keysSorted (b :: post) := by
            have := List.pairwise_append.mp (by simpa [keysSorted] using hsf)
            simpa [keysSorted] using this.2.1
          exact ((keysSorted_cons _ _).mp hp2).1 _ hp'

/-- The winner of a completed analysis in terms of interpolated values, when some
subset interpolates. -/
theorem analyze_winner_run (throws : Bool) (shares : List Share) (k : Int) (r : Report)
    (hr : analyze throws shares k = some r) (s : Int)
    (hs : 0 < tallyOf (combinations shares k) s) :
    ∃ z, r.bestSecret = get_str z ∧
      (∀ v, tallyOf (combinations shares k) v ≤ tallyOf (combinations shares k) z) ∧
      r.maxFreq = tallyOf (combinations shares k) z ∧
      (∀ v, tallyOf (combinations shares k) v = tallyOf (combinations shares k) z →
        v = z ∨ strLt (get_str z) (get_str v) = true) := by
  obtain ⟨hle, hmax, htie⟩ := analyze_spec_run throws shares k r hr
  have hpos : 0 < r.maxFreq := by
    have := hle (get_str s)
    rw [supporters_length_get_str] at this
    omega
  obtain ⟨z, hz, _⟩ := supporters_pos _ _ (hmax ▸ hpos)
  have hmz : r.maxFreq = tallyOf (combinations shares k) z := by
    rw [hmax, hz, supporters_length_get_str]
  refine ⟨z, hz, fun v => ?_, hmz, fun v hv => ?_⟩
  · rw [← hmz, ← supporters_length_get_str]; exact hle _
  · rcases htie (get_str v) (by rw [supporters_length_get_str, hv, hmz]) hpos with he | hlt
    · left; exact get_str_injective (he.trans hz)
    · right; rw [← hz]; exact hlt

theorem tallyOf_singletons_pair (a b : Share) (t : Int) :
    tallyOf [[a], [b]] t = (if a.2 = t then 1 else 0) + (if b.2 = t then 1 else 0) := by
  have h1 : lagrangeInterpolationAtZero [a] = some a.2 := by
    rw [lagrange_of_nodup [a] (by simp)]
    simp [specSum, specNum, specDen, at_]
  have h2 : lagrangeInterpolationAtZero [b] = some b.2 := by
    rw [lagrange_of_nodup [b] (by simp)]
    simp [specSum, specNum, specDen, at_]
  exact tallyOf_pair [a] [b] a.2 b.2 t h1 h2

/-- C8, amended: on every input the analysis produces a report exactly when a
failed division is caught or no enumerated subset fails to interpolate; and for
every report it produces and the value `s` of highest tally whose first
supporting subset comes earliest in the enumeration among the values of that
tally, `bestSecret` is `s` exactly when the decimal string of `s` is smaller, in
byte-wise lexicographic order, than that of every other value of that tally. -/
theorem first_occurrence_wins_iff_it_has_least_key (throws : Bool) (shares : List Share)
    (k : Int) (s : Int)
    (hs : 0 < tallyOf (combinations shares k) s)
    (hmax : ∀ t, tallyOf (combinations shares k) t ≤ tallyOf (combinations shares k) s)
    (hfirst : ∀ b, b ≠ s →
      tallyOf (combinations shares k) b = tallyOf (combinations shares k) s →
      firstSupport (combinations shares k) s < firstSupport (combinations shares k) b) :
    ((∃ r, analyze throws shares k = some r) ↔
      (throws = true ∨
        ∀ c ∈ combinations shares k, lagrangeInterpolationAtZero c ≠ none)) ∧
    ∀ r, analyze throws shares k = some r →
      (r.bestSecret = get_str s ↔
        ∀ b, b ≠ s → tallyOf (combinations shares k) b = tallyOf (combinations shares k) s →
          strLt (get_str s) (get_str b) = true) := by
  refine ⟨analyze_completes_iff throws shares k, fun r hr => ?_⟩
  obtain ⟨z, hz, hle, _, htie⟩ := analyze_winner_run throws shares k r hr s hs
  have hzs : tallyOf (combinations shares k) z = tallyOf (combinations shares k) s :=
    Nat.le_antisymm (hmax z) (hle s)
  constructor
  · intro hbest b hbs hbt
    have hzeq : z = s := get_str_injective (hz.symm.trans hbest)
    subst hzeq
    rcases htie b hbt with he | hl
    · exact absurd he hbs
    · exact hl
  · intro hleast
    by_cases hzeq : z = s
    · rw [hz, hzeq]
    · have h1 := hleast z hzeq hzs
      rcases htie s hzs.symm with he | hl
      · exact absurd he.symm hzeq
      · rw [strLt_asymm _ _ h1] at hl
        exact Bool.noConfusion hl

theorem first_occurrence_wins_iff_it_has_least_key_witness :
    (∃ r, analyze false [(1, 10), (1, 9)] 1 = some r ∧
      (r.bestSecret = get_str 10 ↔
        ∀ b, b ≠ 10 →
          tallyOf (combinations [(1, 10), (1, 9)] 1) b =
            tallyOf (combinations [(1, 10), (1, 9)] 1) 10 →
          strLt (get_str 10) (get_str b) = true)) ∧
    (analyze false [(1, 10), (1, 9)] 1).map (fun r => r.bestSecret) = some (get_str 10) ∧
    firstSupport (combinations [(1, 10), (1, 9)] 1) 10 = 0 ∧
    firstSupport (combinations [(1, 10), (1, 9)] 1) 9 = 1 :=
  have hc : combinations [(1, 10), (1, 9)] 1 = [[(1, 10)], [(1, 9)]] := by decide
  have ht : ∀ t, tallyOf (combinations [(1, 10), (1, 9)] 1) t =
      (if (10 : Int) = t then 1 else 0) + (if (9 : Int) = t then 1 else 0) := fun t => by
    rw [hc]; exact tallyOf_singletons_pair (1, 10) (1, 9) t
  have hthm := first_occurrence_wins_iff_it_has_least_key false [(1, 10), (1, 9)] 1 10
    (by decide)
    (fun t => by
      rw [ht t, ht 10]
      split <;> split <;> simp_all)
    (fun b hb hbt => by
      rw [ht b, ht 10] at hbt
      have hb9 : b = 9 := by
        by_cases h1 : (10 : Int) = b
        · exact absurd h1.symm hb
        · by_cases h2 : (9 : Int) = b
          · exact h2.symm
          · simp [h1, h2] at hbt
      subst hb9
      decide)
  let ⟨r, hr⟩ := hthm.1.mpr (Or.inr (by decide))
  ⟨⟨r, hr, hthm.2 r hr⟩, by decide, by decide, by decide⟩

/-- C9: on every input the analysis produces a report exactly when a failed
division is caught or no enumerated subset fails to interpolate; and for every
report it produces and every value `s` with the highest tally, `bestSecret` is the
decimal string of a value `z` with that same tally, and `z` is `s` or its string
is smaller than that of `s` in byte-wise lexicographic order: ties go to the
smallest key, whatever the enumeration order. -/
theorem ties_go_to_least_decimal_string (throws : Bool) (shares : List Share)
    (k : Int) (s : Int)
    (hs : 0 < tallyOf (combinations shares k) s)
    (hmax : ∀ t, tallyOf (combinations shares k) t ≤ tallyOf (combinations shares k) s) :
    ((∃ r, analyze throws shares k = some r) ↔
      (throws = true ∨
        ∀ c ∈ combinations shares k, lagrangeInterpolationAtZero c ≠ none)) ∧
    ∀ r, analyze throws shares k = some r →
      ∃ z, r.bestSecret = get_str z ∧
        tallyOf (combinations shares k) z = tallyOf (combinations shares k) s ∧
        (z = s ∨ strLt (get_str z) (get_str s) = true) := by
  refine ⟨analyze_completes_iff throws shares k, fun r hr => ?_⟩
  obtain ⟨z, hz, hle, _, htie⟩ := analyze_winner_run throws shares k r hr s hs
  have hzs : tallyOf (combinations shares k) z = tallyOf (combinations shares k) s :=
    Nat.le_antisymm (hmax z) (hle s)
  refine ⟨z, hz, hzs, ?_⟩
  rcases htie s hzs.symm with he | hl
  · left; exact he.symm
  · right; exact hl

theorem ties_go_to_least_decimal_string_witness :
    (∃ r, analyze false [(1, 9), (1, 10)] 1 = some r ∧
      ∃ z, r.bestSecret = get_str z ∧
        tallyOf (combinations [(1, 9), (1, 10)] 1) z =
          tallyOf (combinations [(1, 9), (1, 10)] 1) 9 ∧
        (z = 9 ∨ strLt (get_str z) (get_str 9) = true)) ∧
    (analyze false [(1, 9), (1, 10)] 1).map (fun r => r.bestSecret) = some ['1', '0'] ∧
    strLt ['1', '0'] ['9'] = true :=
  have hc : combinations [(1, 9), (1, 10)] 1 = [[(1, 9)], [(1, 10)]] := by decide
  have ht : ∀ t, tallyOf (combinations [(1, 9), (1, 10)] 1) t =
      (if (9 : Int) = t then 1 else 0) + (if (10 : Int) = t then 1 else 0) := fun t => by
    rw [hc]; exact tallyOf_singletons_pair (1, 9) (1, 10) t
  have hthm := ties_go_to_least_decimal_string false [(1, 9), (1, 10)] 1 9
    (by decide)
    (fun t => by
      rw [ht t, ht 9]
      split <;> split <;> simp_all)
  let ⟨r, hr⟩ := hthm.1.mpr (Or.inr (by decide))
  ⟨⟨r, hr, hthm.2 r hr⟩, by decide, by decide⟩

end Shamir
